import Mathlib

/-!
# Verification of twinspect core algorithms

A shallow embedding of the parts of the `twinspect` benchmark suite that the
specification talks about, together with theorems settling the spec claims.

Modelling conventions:

* Python lists become Lean `List`s; Python dicts become insertion-ordered
  association lists (`List (key × value)`) with an update-in-place-or-append
  assignment operation, matching CPython dict semantics.
* Python `sorted` / `list.sort` are stable sorts; they are modelled by
  `List.insertionSort`, which is also stable, so the modelling is exact.
* blake3 hashing is modelled injectively: a hash object is identified with the
  stream of byte strings fed to it via `update`, and a file digest with the
  file content.  Hash collisions are outside the model.
* Fallible code returns `Except`; raising an exception is `Except.error`.
* Wall-clock measurements are modelled as the constant 0; no claim depends on
  the measured value itself.
-/

namespace Twinspect

/-! ## Generic helpers -/

/-- Lexicographic (non-strict) order on pairs, as produced by Python tuple
comparison `(d1, i1) <= (d2, i2)`. -/
def lexLe {α β : Type} [LinearOrder α] [LinearOrder β] (a b : α × β) : Prop :=
  a.1 < b.1 ∨ (a.1 = b.1 ∧ a.2 ≤ b.2)

/-- Strict lexicographic order on pairs. -/
def lexLt {α β : Type} [LinearOrder α] [LinearOrder β] (a b : α × β) : Prop :=
  a.1 < b.1 ∨ (a.1 = b.1 ∧ a.2 < b.2)

instance {α β : Type} [LinearOrder α] [LinearOrder β] : DecidableRel (@lexLe α β _ _) :=
  fun a b => by unfold lexLe; infer_instance

instance {α β : Type} [LinearOrder α] [LinearOrder β] : DecidableRel (@lexLt α β _ _) :=
  fun a b => by unfold lexLt; infer_instance

theorem lexLe_total {α β : Type} [LinearOrder α] [LinearOrder β] (a b : α × β) :
    lexLe a b ∨ lexLe b a := by
  unfold lexLe
  rcases lt_trichotomy a.1 b.1 with h | h | h
  · exact Or.inl (Or.inl h)
  · rcases le_total a.2 b.2 with h2 | h2
    · exact Or.inl (Or.inr ⟨h, h2⟩)
    · exact Or.inr (Or.inr ⟨h.symm, h2⟩)
  · exact Or.inr (Or.inl h)

theorem lexLe_trans {α β : Type} [LinearOrder α] [LinearOrder β] {a b c : α × β}
    (h1 : lexLe a b) (h2 : lexLe b c) : lexLe a c := by
  unfold lexLe at h1 h2 ⊢
  rcases h1 with h1 | ⟨h1e, h1r⟩
  · rcases h2 with h2 | ⟨h2e, _⟩
    · exact Or.inl (h1.trans h2)
    · exact Or.inl (h2e ▸ h1)
  · rcases h2 with h2 | ⟨h2e, h2r⟩
    · exact Or.inl (h1e ▸ h2)
    · exact Or.inr ⟨h1e.trans h2e, h1r.trans h2r⟩

theorem lexLe_of_lexLt {α β : Type} [LinearOrder α] [LinearOrder β] {a b : α × β}
    (h : lexLt a b) : lexLe a b := by
  unfold lexLt at h; unfold lexLe
  rcases h with h | ⟨he, hr⟩
  · exact Or.inl h
  · exact Or.inr ⟨he, le_of_lt hr⟩

theorem lexLt_of_lexLe_of_ne_snd {α β : Type} [LinearOrder α] [LinearOrder β] {a b : α × β}
    (h : lexLe a b) (hne : a.2 ≠ b.2) : lexLt a b := by
  unfold lexLe at h; unfold lexLt
  rcases h with h | ⟨he, hr⟩
  · exact Or.inl h
  · exact Or.inr ⟨he, lt_of_le_of_ne hr hne⟩

/-- Two permuted lists that are both sorted by a key taking no duplicate values
are equal.  Used to show that re-sorting makes results independent of the
order in which concurrent tasks completed. -/
theorem eq_of_perm_of_sorted_key {α β : Type} [LinearOrder β] (key : α → β)
    {l1 l2 : List α} (hp : l1.Perm l2)
    (h1 : l1.Pairwise (fun a b => key a ≤ key b))
    (h2 : l2.Pairwise (fun a b => key a ≤ key b))
    (hn : (l1.map key).Nodup) : l1 = l2 := by
  haveI : IsAntisymm α (fun a b => key a < key b) :=
    ⟨fun a b hab hba => absurd (hab.trans hba) (lt_irrefl _)⟩
  have hne1 : l1.Pairwise (fun a b => key a ≠ key b) := List.pairwise_map.mp hn
  have hn2 : (l2.map key).Nodup := ((hp.map key).nodup_iff).mp hn
  have hne2 : l2.Pairwise (fun a b => key a ≠ key b) := List.pairwise_map.mp hn2
  have hs1 : l1.Pairwise (fun a b => key a < key b) :=
    (h1.and hne1).imp (fun h => lt_of_le_of_ne h.1 h.2)
  have hs2 : l2.Pairwise (fun a b => key a < key b) :=
    (h2.and hne2).imp (fun h => lt_of_le_of_ne h.1 h.2)
  exact List.eq_of_perm_of_sorted hp hs1 hs2

/-! ## Hamming search engines (`twinspect/metrics/hamming.py`) -/

/-- Number of set bits in one byte, as computed by `np.unpackbits` + `np.sum`
for a single `uint8`. -/
def popcount8 (n : Nat) : Nat :=
  ((List.range 8).filter (fun i => n.testBit i)).length

/-- `LameDuck.hamming_distance`: popcount of the bytewise xor of two equal
length byte vectors. -/
def hamming_distance (code1 code2 : List Nat) : Nat :=
  (List.zipWith (fun a b => popcount8 (a ^^^ b)) code1 code2).sum

/-- One query of `LameDuck.iter_queries`: all indices `j ≠ i` whose code is
within `threshold` hamming distance of code `i`, as `(distance, j)` pairs,
sorted by Python tuple order.  The `distribution` counter updated by the
source is benchmark telemetry and not part of the returned result. -/
def lameDuckQuery (codes : List (List Nat)) (threshold : Nat) (i : Nat) :
    List (Nat × Nat) :=
  let code := codes.getD i []
  let query_result := codes.enum.filterMap (fun p =>
    if p.1 ≠ i then
      if hamming_distance code p.2 ≤ threshold
      then some (hamming_distance code p.2, p.1) else none
    else none)
  List.insertionSort lexLe query_result

/-- One query of `HammingHero.iter_queries`.  The faiss index lookup
`index.search` is an external library call; its reply is the parameter
`searchRes`, a list of `(distance, index)` pairs (faiss pads missing results
with sentinel ids).  The source keeps the pairs with `dist <= threshold` and
`idx != i` and sorts them by Python tuple order. -/
def hammingHeroQuery (searchRes : List (Int × Int)) (threshold : Int) (i : Int) :
    List (Int × Int) :=
  List.insertionSort lexLe
    (searchRes.filter (fun p => p.1 ≤ threshold ∧ p.2 ≠ i))

theorem insertionSort_lexLe_sorted {α β : Type} [LinearOrder α] [LinearOrder β]
    (l : List (α × β)) :
    (List.insertionSort lexLe l).Pairwise lexLe := by
  haveI : IsTotal (α × β) lexLe := ⟨lexLe_total⟩
  haveI : IsTrans (α × β) lexLe := ⟨fun _ _ _ => lexLe_trans⟩
  exact List.sorted_insertionSort lexLe l

theorem insertionSort_lexLt_of_pairwise_ne_snd {α β : Type} [LinearOrder α] [LinearOrder β]
    {l : List (α × β)} (h : l.Pairwise (fun a b => a.2 ≠ b.2)) :
    (List.insertionSort lexLe l).Pairwise lexLt := by
  have hs := insertionSort_lexLe_sorted l
  have hperm := List.perm_insertionSort lexLe l
  have hne : (List.insertionSort lexLe l).Pairwise (fun a b => a.2 ≠ b.2) :=
    (hperm.pairwise_iff (by intro a b hx; exact hx.symm)).mpr h
  exact (hs.and hne).imp (fun hh => lexLt_of_lexLe_of_ne_snd hh.1 hh.2)

theorem lameDuck_filterMap_spec (code : List Nat) (threshold i : Nat)
    {p : Nat × List Nat} {b : Nat × Nat}
    (hb : (if p.1 ≠ i then
            if hamming_distance code p.2 ≤ threshold
            then some (hamming_distance code p.2, p.1) else none
          else none) = some b) :
    b.2 = p.1 ∧ b.1 ≤ threshold ∧ b.2 ≠ i := by
  split at hb
  · rename_i hpi
    split at hb
    · rename_i hd
      cases hb
      exact ⟨rfl, hd, hpi⟩
    · exact Option.noConfusion hb
  · exact Option.noConfusion hb

theorem lameDuckQuery_pairwise_ne_snd (codes : List (List Nat)) (threshold i : Nat) :
    (codes.enum.filterMap (fun p =>
      if p.1 ≠ i then
        if hamming_distance (codes.getD i []) p.2 ≤ threshold
        then some (hamming_distance (codes.getD i []) p.2, p.1) else none
      else none)).Pairwise (fun a b => a.2 ≠ b.2) := by
  have henum : codes.enum.Pairwise (fun a b => a.1 ≠ b.1) := by
    have h1 : (codes.enum.map Prod.fst).Nodup := by
      rw [List.enum_map_fst]; exact List.nodup_range _
    exact List.pairwise_map.mp h1
  refine List.Pairwise.filterMap _ ?_ henum
  intro a a' hne b hb b' hb'
  have h1 := lameDuck_filterMap_spec (codes.getD i []) threshold i hb
  have h2 := lameDuck_filterMap_spec (codes.getD i []) threshold i hb'
  rw [h1.1, h2.1]
  exact hne

/-- Claim C3: both search engines return result lists sorted ascending by
distance with ties broken by increasing result id, never contain the query
id itself, and never contain a pair above the threshold.  For `HammingHero`
the tie-break statement assumes the faiss reply carries no duplicate result
ids (faiss returns distinct labels per query). -/
theorem C3_search_results_sorted_and_filtered :
    (∀ (codes : List (List Nat)) (threshold i : Nat),
      (lameDuckQuery codes threshold i).Pairwise lexLt ∧
      ∀ p ∈ lameDuckQuery codes threshold i, p.1 ≤ threshold ∧ p.2 ≠ i) ∧
    (∀ (searchRes : List (Int × Int)) (threshold i : Int),
      (hammingHeroQuery searchRes threshold i).Pairwise lexLe ∧
      ((searchRes.map Prod.snd).Nodup →
        (hammingHeroQuery searchRes threshold i).Pairwise lexLt) ∧
      ∀ p ∈ hammingHeroQuery searchRes threshold i, p.1 ≤ threshold ∧ p.2 ≠ i) := by
  constructor
  · intro codes threshold i
    constructor
    · exact insertionSort_lexLt_of_pairwise_ne_snd
        (lameDuckQuery_pairwise_ne_snd codes threshold i)
    · intro p hp
      rw [lameDuckQuery, List.mem_insertionSort, List.mem_filterMap] at hp
      obtain ⟨a, _, ha⟩ := hp
      have h := lameDuck_filterMap_spec (codes.getD i []) threshold i ha
      exact ⟨h.2.1, h.2.2⟩
  · intro searchRes threshold i
    refine ⟨insertionSort_lexLe_sorted _, ?_, ?_⟩
    · intro hnd
      refine insertionSort_lexLt_of_pairwise_ne_snd ?_
      have h1 : searchRes.Pairwise (fun a b => a.2 ≠ b.2) := List.pairwise_map.mp hnd
      exact h1.filter _
    · intro p hp
      rw [hammingHeroQuery, List.mem_insertionSort, List.mem_filter] at hp
      have := hp.2
      simp only [decide_eq_true_eq] at this
      exact this

/-- Witness for C3 at concrete inputs. -/
theorem C3_search_results_witness :
    (hammingHeroQuery [(2, 1), (0, 3)] 2 0).Pairwise lexLt ∧
    (lameDuckQuery [[1], [3], [2]] 8 0).Pairwise lexLt := by
  constructor
  · exact (C3_search_results_sorted_and_filtered.2 [(2, 1), (0, 3)] 2 0).2.1 (by decide)
  · exact (C3_search_results_sorted_and_filtered.1 [[1], [3], [2]] 8 0).1

/-! ## Speed metric (`twinspect/metrics/speed.py`) -/

/-- Exceptions the speed computation can raise: dividing a size by a zero
time, or taking `min` of an empty sequence. -/
inductive SpeedError where
  | zeroDivisionError : SpeedError
  | valueError : SpeedError
deriving DecidableEq

/-- One row of a simprint csv file as read by `speed`: the `size` and `time`
integer columns. -/
structure SpeedRow where
  size : Nat
  time : Nat
deriving DecidableEq

/-- The bytes-per-millisecond list built by the row loop in `speed`; a row
with `time = 0` raises `ZeroDivisionError` at `size / time`. -/
def computeBpms : List SpeedRow → Except SpeedError (List ℚ)
  | [] => .ok []
  | r :: rest =>
    if r.time = 0 then .error .zeroDivisionError
    else do
      let tail ← computeBpms rest
      return ((r.size : ℚ) / (r.time : ℚ)) :: tail

/-- The throughput summary built by `speed`. -/
structure SpeedResult where
  min : ℚ
  max : ℚ
  mean : ℚ
  median : ℚ
deriving DecidableEq

/-- `statistics.median`: middle element of the sorted data, or the average of
the two middle elements for even length. -/
def pyMedian (l : List ℚ) : ℚ :=
  let s := List.insertionSort (fun a b : ℚ => a ≤ b) l
  if s.length % 2 = 1 then s.getD (s.length / 2) 0
  else (s.getD (s.length / 2 - 1) 0 + s.getD (s.length / 2) 0) / 2

/-- The computing branch of `speed` (the branch taken when no cached metric
exists): reads the rows, builds bytes-per-millisecond values and summarises
them.  `min`/`max` of an empty sequence raise `ValueError`. -/
def speedCompute (rows : List SpeedRow) : Except SpeedError SpeedResult := do
  let bpms ← computeBpms rows
  match bpms with
  | [] => .error .valueError
  | b :: bs =>
    return { min := bs.foldl Min.min b
             max := bs.foldl Max.max b
             mean := (b :: bs).sum / ((b :: bs).length : ℚ)
             median := pyMedian (b :: bs) }

theorem computeBpms_error_of_zero_time {rows : List SpeedRow}
    (h : ∃ r ∈ rows, r.time = 0) :
    computeBpms rows = .error .zeroDivisionError := by
  induction rows with
  | nil => simp at h
  | cons r rest ih =>
    obtain ⟨x, hx, hx0⟩ := h
    rcases List.mem_cons.mp hx with hx | hx
    · subst hx
      simp [computeBpms, hx0]
    · rw [computeBpms]
      by_cases hr : r.time = 0
      · simp [hr]
      · simp only [hr, if_false]
        rw [ih ⟨x, hx, hx0⟩]
        rfl

theorem computeBpms_ok_of_pos_time {rows : List SpeedRow}
    (h : ∀ r ∈ rows, 0 < r.time) :
    computeBpms rows = .ok (rows.map (fun r => (r.size : ℚ) / (r.time : ℚ))) := by
  induction rows with
  | nil => rfl
  | cons r rest ih =>
    have hr : r.time ≠ 0 := Nat.pos_iff_ne_zero.mp (h r (List.mem_cons_self r rest))
    rw [computeBpms]
    simp only [hr, if_false]
    rw [ih (fun x hx => h x (List.mem_cons_of_mem r hx))]
    rfl

/-- Claim C10: any simprint table containing a row with a recorded time of 0
milliseconds makes the speed computation raise `ZeroDivisionError` instead of
producing a throughput summary, while tables whose times are all positive
(and that are nonempty) produce a summary. -/
theorem C10_speed_zero_time_raises (rows : List SpeedRow) :
    ((∃ r ∈ rows, r.time = 0) →
      speedCompute rows = .error .zeroDivisionError) ∧
    ((∀ r ∈ rows, 0 < r.time) → rows ≠ [] →
      ∃ res, speedCompute rows = .ok res) := by
  constructor
  · intro h
    rw [speedCompute, computeBpms_error_of_zero_time h]
    rfl
  · intro h hne
    rw [speedCompute, computeBpms_ok_of_pos_time h]
    cases rows with
    | nil => exact absurd rfl hne
    | cons r rest => exact ⟨_, rfl⟩

/-- Witness for C10 at concrete inputs. -/
theorem C10_speed_zero_time_raises_witness :
    speedCompute [⟨5, 0⟩] = .error .zeroDivisionError ∧
    ∃ res, speedCompute [⟨6, 2⟩] = .ok res :=
  ⟨(C10_speed_zero_time_raises [⟨5, 0⟩]).1 ⟨⟨5, 0⟩, by simp, rfl⟩,
   (C10_speed_zero_time_raises [⟨6, 2⟩]).2 (by simp) (by simp)⟩

/-! ## Filesystem model and integrity checks (`twinspect/datasets/integrity.py`)

A directory is a list of entries.  `os.scandir` classifies entries with
`DirEntry.is_dir()` / `DirEntry.is_file()`, which in the source are called
with their default `follow_symlinks=True`, so a symlink to a directory
counts as a directory and a symlink to a file counts as a file, with `stat`
data taken from the target.  Symlinks are therefore modelled as entries
carrying their resolved target data.  A file's `st_size` is the length of
its content bytes. -/

inductive Entry where
  | file : String → String → Nat → Entry
  | dir : String → List Entry → Entry
  | symFile : String → String → Nat → Entry
  | symDir : String → List Entry → Entry

/-- The `DirEntry.name` used as the deterministic sort key. -/
def Entry.entryName : Entry → String
  | .file n _ _ => n
  | .dir n _ => n
  | .symFile n _ _ => n
  | .symDir n _ => n

/-- `DirEntry.is_dir()` with the default `follow_symlinks=True`. -/
def Entry.isDirE : Entry → Bool
  | .dir _ _ => true
  | .symDir _ _ => true
  | _ => false

/-- `DirEntry.is_file()` with the default `follow_symlinks=True`. -/
def Entry.isFileE : Entry → Bool
  | .file _ _ _ => true
  | .symFile _ _ _ => true
  | _ => false

/-- The entries of a (possibly symlinked) directory. -/
def Entry.children : Entry → List Entry
  | .dir _ es => es
  | .symDir _ es => es
  | _ => []

/-- The content bytes of a (possibly symlinked) file. -/
def Entry.contentE : Entry → String
  | .file _ c _ => c
  | .symFile _ c _ => c
  | _ => ""

/-- The `st_mtime` of a (possibly symlinked) file. -/
def Entry.mtimeE : Entry → Nat
  | .file _ _ t => t
  | .symFile _ _ t => t
  | _ => 0

/-- One visited file: its root-relative path, `st_size`, `st_mtime` and (to
model the byte reads done by `hash_file_secure`) its content. -/
structure FileRec where
  path : String
  size : Nat
  mtime : Nat
  content : String
deriving DecidableEq

theorem String.one_le_sizeOf (s : String) : 1 ≤ sizeOf s := by
  cases s with
  | mk data => simp

theorem Entry.sizeOf_children_lt (e : Entry) : sizeOf e.children < sizeOf e := by
  cases e with
  | file n c t => have := String.one_le_sizeOf n; simp [Entry.children]; omega
  | dir n es => simp [Entry.children]
  | symFile n c t => have := String.one_le_sizeOf n; simp [Entry.children]; omega
  | symDir n es => simp [Entry.children]

theorem sizeOf_filter_le (p : Entry → Bool) (l : List Entry) :
    sizeOf (l.filter p) ≤ sizeOf l := by
  induction l with
  | nil => simp
  | cons a t ih =>
    rw [List.filter_cons]
    by_cases h : p a
    · simp only [h, if_pos]
      simp only [List.cons.sizeOf_spec]
      omega
    · simp only [h, if_neg, Bool.false_eq_true, not_false_iff]
      simp only [List.cons.sizeOf_spec]
      omega

theorem sizeOf_insertionSort_entries (r : Entry → Entry → Prop) [DecidableRel r]
    (l : List Entry) : sizeOf (List.insertionSort r l) = sizeOf l :=
  (List.perm_insertionSort r l).sizeOf_eq_sizeOf

mutual

/-- The recursive traversal of `iter_file_meta`: entries of the current
directory sorted by name, directories (in sorted order) recursed into first,
then the files of the current directory.  Each visited file is recorded with
its root-relative path, size, mtime and content. -/
def walkFiles (pre : String) (entries : List Entry) : List FileRec :=
  let sortedEntries := List.insertionSort
    (fun a b : Entry => a.entryName ≤ b.entryName) entries
  goDirs pre (sortedEntries.filter (fun e => e.isDirE)) ++
    (sortedEntries.filter (fun e => e.isFileE)).map
      (fun f => ⟨pre ++ f.entryName, f.contentE.length, f.mtimeE, f.contentE⟩)
termination_by sizeOf entries + 1
decreasing_by
  have h1 := sizeOf_filter_le (fun e => e.isDirE)
    (List.insertionSort (fun a b : Entry => a.entryName ≤ b.entryName) entries)
  have h2 := sizeOf_insertionSort_entries
    (fun a b : Entry => a.entryName ≤ b.entryName) entries
  omega

/-- The `for dir_entry in dirs: yield from iter_file_meta(...)` loop. -/
def goDirs (pre : String) : List Entry → List FileRec
  | [] => []
  | d :: rest =>
      walkFiles (pre ++ d.entryName ++ "/") d.children ++ goDirs pre rest
termination_by ds => sizeOf ds
decreasing_by
  all_goals simp only [List.cons.sizeOf_spec]
  · have := Entry.sizeOf_children_lt d; omega
  · omega

end

/-- `iter_file_meta`: the `(relpath, size, mtime)` triples of the traversal. -/
def iter_file_meta (entries : List Entry) : List (String × Nat × Nat) :=
  (walkFiles "" entries).map (fun r => (r.path, r.size, r.mtime))

/-- The root-relative path plus content of every file the traversal visits,
modelling the bytes `hash_file_secure` reads from `path / rel_path`. -/
def filesContent (entries : List Entry) : List (String × String) :=
  (walkFiles "" entries).map (fun r => (r.path, r.content))


/-- Claim C8 (divergence evidence): the traversal follows symbolic links
instead of ignoring them, contradicting the docstring of `iter_file_meta`
("Symlincs are ignored silently").  In a directory holding a regular file
`a`, a symlink `s` to a file and a symlink `d` to a directory containing a
regular file `x`, the traversal recurses through `d` and yields a metadata
triple for `s`, because `DirEntry.is_dir` / `DirEntry.is_file` are called
with their default `follow_symlinks=True`.  The sorted-directories-first
bottom-up order is visible in the result. -/
theorem C8_symlinks_followed_not_ignored :
    iter_file_meta [.symDir ("d") [.file ("x") ("AB") 5], .file ("a") ("Z") 3,
        .symFile ("s") ("XY") 7] =
      [(("d/x"), 2, 5), (("a"), 1, 3), (("s"), 2, 7)] := by
  have h1 : (['a'] : List Char) ≤ ['s'] := by decide
  have h2 : ¬((['d'] : List Char) ≤ ['a']) := by decide
  have h3 : (['d'] : List Char) ≤ ['s'] := by decide
  simp [iter_file_meta, walkFiles, goDirs, Entry.entryName, Entry.isDirE, Entry.isFileE,
    Entry.contentE, Entry.mtimeE, Entry.children, List.insertionSort, List.orderedInsert,
    h1, h2, h3]
  decide

/-- The exceptions of `twinspect/exceptions.py` with their payloads. -/
inductive TSError where
  | integrityError : String → List String → List String → TSError
  | emptyFileError : String → TSError
  | duplicateFileError : String → String → TSError
deriving DecidableEq

/-- A blake3 digest, modelled injectively as the stream of strings fed to the
hasher via `update` (for `check_dir_fast` the metadata idents, for
`check_dir_secure` the per-file digests).  The hex encoding and the 64-bit
truncation of `hexdigest(8)` only re-encode this stream, so digest equality
is transcript equality; collisions are outside the model. -/
abbrev Digest := List String

/-- The metadata ident `f"{file};{size};{time}"` fed to the fast hasher. -/
def ident (file : String) (size : Nat) (time : Nat) : String :=
  file ++ ";" ++ toString size ++ ";" ++ toString time

/-- The metadata loop of `check_dir_fast`: raises `EmptyFileError` at the
first zero-byte file when `raise_empty` is set, otherwise feeds each ident to
the hasher. -/
def checkDirFastLoop (raiseEmpty : Bool) :
    List (String × Nat × Nat) → Except TSError (List String)
  | [] => .ok []
  | (file, size, time) :: rest =>
    if size = 0 ∧ raiseEmpty then .error (.emptyFileError file)
    else do
      let tail ← checkDirFastLoop raiseEmpty rest
      return ident file size time :: tail

/-- `check_dir_fast`: the fast metadata checksum over `iter_file_meta`,
verified against `expected` when one is supplied (a supplied checksum is a
non-empty hex string, hence truthy). -/
def check_dir_fast (root : String) (entries : List Entry) (expected : Option Digest)
    (raiseEmpty : Bool) : Except TSError Digest := do
  let actual_hash ← checkDirFastLoop raiseEmpty (iter_file_meta entries)
  match expected with
  | some e =>
    if e = actual_hash then .ok actual_hash
    else .error (.integrityError root e actual_hash)
  | none => .ok actual_hash

/-- The fast digest of a tree, when no empty-file error interrupts it. -/
def fastDigest (entries : List Entry) : Digest :=
  (iter_file_meta entries).map (fun m => ident m.1 m.2.1 m.2.2)

theorem checkDirFastLoop_ok {raiseEmpty : Bool} {metas : List (String × Nat × Nat)}
    (h : raiseEmpty = false ∨ ∀ m ∈ metas, m.2.1 ≠ 0) :
    checkDirFastLoop raiseEmpty metas = .ok (metas.map (fun m => ident m.1 m.2.1 m.2.2)) := by
  induction metas with
  | nil => rfl
  | cons m rest ih =>
    obtain ⟨file, size, time⟩ := m
    have hcond : ¬(size = 0 ∧ raiseEmpty = true) := by
      rcases h with h | h
      · rintro ⟨_, habs⟩; rw [h] at habs; exact Bool.noConfusion habs
      · rintro ⟨h0, _⟩; exact h (file, size, time) (List.mem_cons_self _ _) h0
    rw [checkDirFastLoop]
    simp only [hcond, if_neg, not_false_iff]
    have ih2 : checkDirFastLoop raiseEmpty rest = .ok (rest.map (fun m => ident m.1 m.2.1 m.2.2)) := by
      refine ih ?_
      rcases h with h | h
      · exact Or.inl h
      · exact Or.inr (fun x hx => h x (List.mem_cons_of_mem _ hx))
    rw [ih2]
    rfl

/-- Claim C6: with a supplied expected checksum, `check_dir_fast` raises
`IntegrityError` carrying the path, the expected value and the actual value
exactly when the actual digest differs from the expected one, and otherwise
returns the actual digest; without an expected value it returns the actual
digest.  The hypothesis excludes the earlier `EmptyFileError` exit (no
zero-byte file, or `raise_empty=False`). -/
theorem C6_fast_check_integrity_error_iff (root : String) (entries : List Entry)
    (e : Digest) (raiseEmpty : Bool)
    (h : raiseEmpty = false ∨ ∀ m ∈ iter_file_meta entries, m.2.1 ≠ 0) :
    (e ≠ fastDigest entries →
      check_dir_fast root entries (some e) raiseEmpty =
        .error (.integrityError root e (fastDigest entries))) ∧
    (e = fastDigest entries →
      check_dir_fast root entries (some e) raiseEmpty = .ok (fastDigest entries)) ∧
    check_dir_fast root entries none raiseEmpty = .ok (fastDigest entries) := by
  have hloop := checkDirFastLoop_ok h
  refine ⟨fun hne => ?_, fun heq => ?_, ?_⟩
  · rw [check_dir_fast, hloop]
    show (if e = fastDigest entries then _ else _) = _
    rw [if_neg hne]
    rfl
  · rw [check_dir_fast, hloop]
    show (if e = fastDigest entries then _ else _) = _
    rw [if_pos heq]
    rfl
  · rw [check_dir_fast, hloop]
    rfl

/-- Witness for C6 at a concrete tree. -/
theorem C6_fast_check_witness :
    check_dir_fast ("root") [.file ("a") ("Z") 3] (some []) true =
      .error (.integrityError ("root") [] (fastDigest [.file ("a") ("Z") 3])) ∧
    check_dir_fast ("root") [.file ("a") ("Z") 3] none true =
      .ok (fastDigest [.file ("a") ("Z") 3]) := by
  have hmeta : iter_file_meta [.file ("a") ("Z") 3] = [(("a"), 1, 3)] := by
    simp [iter_file_meta, walkFiles, goDirs, Entry.entryName, Entry.isDirE, Entry.isFileE,
      Entry.contentE, Entry.mtimeE, List.insertionSort, List.orderedInsert]
    decide
  have h := C6_fast_check_integrity_error_iff ("root") [.file ("a") ("Z") 3] [] true
    (Or.inr (by rw [hmeta]; decide))
  refine ⟨h.1 ?_, h.2.2⟩
  rw [fastDigest, hmeta]
  decide

/-- `hash_file_secure`: the blake3 digest of the file bytes, modelled
injectively, so the digest is identified with the content itself. -/
def hash_file_secure (content : String) : String := content

/-- Lookup in an insertion-ordered association list (Python `dict` read). -/
def getAssoc {β : Type} : List (String × β) → String → Option β
  | [], _ => none
  | (k, v) :: rest, key => if k = key then some v else getAssoc rest key

/-- Python `dict` assignment `d[key] = v`: overwrite in place when the key
exists, append otherwise. -/
def setAssoc {β : Type} : List (String × β) → String → β → List (String × β)
  | [], key, v => [(key, v)]
  | (k, w) :: rest, key, v =>
    if k = key then (key, v) :: rest else (k, w) :: setAssoc rest key v

/-- The `as_completed` loop of `check_dir_secure` over the relative paths in
worker completion order: hash each file, raise `DuplicateFileError` when a
digest was already seen and `raise_dupes` is set, and record
`seen_files[file_hash] = rel_path` (overwriting on tolerated duplicates).
`contents` is the relpath-to-bytes view of the tree that the hashing worker
reads from disk. -/
def dedupLoop (raiseDupes : Bool) (contents : List (String × String)) :
    List String → List (String × String) → Except TSError (List (String × String))
  | [], seen => .ok seen
  | relPath :: rest, seen =>
    let fileHash := hash_file_secure ((getAssoc contents relPath).getD (""))
    match getAssoc seen fileHash with
    | some prev =>
      if raiseDupes then .error (.duplicateFileError relPath prev)
      else dedupLoop raiseDupes contents rest (setAssoc seen fileHash relPath)
    | none => dedupLoop raiseDupes contents rest (setAssoc seen fileHash relPath)

/-- `check_dir_secure`: hash every file of the traversal (the worker pool
finishes in the order given by `completed`, a permutation of the traversal's
relative paths), deduplicate, then feed the per-file digests into the
directory hasher sorted by the relative path each digest is associated with
(`sorted(seen_files.items(), key=lambda x: x[1])`). -/
def check_dir_secure (root : String) (entries : List Entry) (completed : List String)
    (expected : Option Digest) (raiseDupes : Bool) : Except TSError Digest := do
  let seen ← dedupLoop raiseDupes (filesContent entries) completed []
  let sortedItems := List.insertionSort (fun a b : String × String => a.2 ≤ b.2) seen
  let dirhash := sortedItems.map (fun x => x.1)
  match expected with
  | some e =>
    if e = dirhash then .ok dirhash else .error (.integrityError root e dirhash)
  | none => .ok dirhash

/-- Claim C1 (counterexample): on a tree with tolerated byte-identical
duplicate files (`a` and `c` share content, `raise_dupes=False`), two runs of
`check_dir_secure` over the unchanged tree whose workers complete in orders
`a,b,c` and `c,b,a` return different digests: the duplicated digest is
re-associated with whichever path finished last, which moves it in the
path-sorted final fold.  Both completion orders are permutations of the
traversal order. -/
theorem C1_counterexample_duplicate_order_dependence :
    check_dir_secure ("data") [.file ("a") ("X") 1, .file ("b") ("Y") 1, .file ("c") ("X") 1]
        [("a"), ("b"), ("c")] none false = .ok [("Y"), ("X")] ∧
    check_dir_secure ("data") [.file ("a") ("X") 1, .file ("b") ("Y") 1, .file ("c") ("X") 1]
        [("c"), ("b"), ("a")] none false = .ok [("X"), ("Y")] ∧
    ([("Y"), ("X")] : Digest) ≠ [("X"), ("Y")] ∧
    [("a"), ("b"), ("c")].Perm
      ((iter_file_meta [.file ("a") ("X") 1, .file ("b") ("Y") 1, .file ("c") ("X") 1]).map
        Prod.fst) ∧
    [("c"), ("b"), ("a")].Perm
      ((iter_file_meta [.file ("a") ("X") 1, .file ("b") ("Y") 1, .file ("c") ("X") 1]).map
        Prod.fst) := by
  have hwalk : walkFiles ("") [.file ("a") ("X") 1, .file ("b") ("Y") 1, .file ("c") ("X") 1] =
      [⟨("a"), 1, 1, ("X")⟩, ⟨("b"), 1, 1, ("Y")⟩, ⟨("c"), 1, 1, ("X")⟩] := by
    have h1 : (['a'] : List Char) ≤ ['b'] := by decide
    have h2 : (['b'] : List Char) ≤ ['c'] := by decide
    have h3 : (['a'] : List Char) ≤ ['c'] := by decide
    simp [walkFiles, goDirs, Entry.entryName, Entry.isDirE, Entry.isFileE,
      Entry.contentE, Entry.mtimeE, List.insertionSort, List.orderedInsert, h1, h2, h3]
    decide
  refine ⟨?_, ?_, by decide, ?_, ?_⟩
  · simp [check_dir_secure, filesContent, hwalk, dedupLoop, hash_file_secure, getAssoc,
      setAssoc, List.insertionSort, List.orderedInsert]
    rfl
  · simp [check_dir_secure, filesContent, hwalk, dedupLoop, hash_file_secure, getAssoc,
      setAssoc, List.insertionSort, List.orderedInsert]
    rfl
  · rw [iter_file_meta, hwalk]
    decide
  · rw [iter_file_meta, hwalk]
    decide

theorem getAssoc_eq_none {β : Type} {l : List (String × β)} {key : String}
    (h : key ∉ l.map Prod.fst) : getAssoc l key = none := by
  induction l with
  | nil => rfl
  | cons a rest ih =>
    obtain ⟨k, v⟩ := a
    rw [getAssoc]
    have hk : ¬(k = key) := by
      intro he; exact h (by simp [he])
    rw [if_neg hk]
    exact ih (fun hm => h (by simp; exact Or.inr (by simpa using hm)))

theorem setAssoc_eq_append {β : Type} {l : List (String × β)} {key : String} (v : β)
    (h : key ∉ l.map Prod.fst) : setAssoc l key v = l ++ [(key, v)] := by
  induction l with
  | nil => rfl
  | cons a rest ih =>
    obtain ⟨k, w⟩ := a
    rw [setAssoc]
    have hk : ¬(k = key) := by
      intro he; exact h (by simp [he])
    rw [if_neg hk]
    rw [ih (fun hm => h (by simp; exact Or.inr (by simpa using hm)))]
    rfl

theorem getAssoc_of_mem_nodup {β : Type} {l : List (String × β)}
    (hn : (l.map Prod.fst).Nodup) {k : String} {v : β} (hm : (k, v) ∈ l) :
    getAssoc l k = some v := by
  induction l with
  | nil => simp at hm
  | cons a rest ih =>
    obtain ⟨k0, v0⟩ := a
    rw [getAssoc]
    rcases List.mem_cons.mp hm with he | hm2
    · have he1 : k0 = k := (congrArg Prod.fst he).symm
      have he2 : v0 = v := (congrArg Prod.snd he).symm
      rw [if_pos he1, he2]
    · have hk0 : ¬(k0 = k) := by
        intro he
        have hkmem : k ∈ rest.map Prod.fst :=
          List.mem_map.mpr ⟨(k, v), hm2, rfl⟩
        rw [List.map_cons, List.nodup_cons] at hn
        exact hn.1 (he ▸ hkmem)
      rw [if_neg hk0]
      rw [List.map_cons, List.nodup_cons] at hn
      exact ih hn.2 hm2

/-- When all file hashes in the work list are pairwise distinct, the
deduplication loop never sees a repeated digest: it returns the
`(digest, relpath)` pairs in completion order, for either `raise_dupes`
setting. -/
theorem dedupLoop_fresh (rd : Bool) (contents : List (String × String))
    (todo : List String) :
    ∀ seen : List (String × String),
      (seen.map Prod.fst ++
        todo.map (fun p => hash_file_secure ((getAssoc contents p).getD ("")))).Nodup →
      dedupLoop rd contents todo seen =
        .ok (seen ++ todo.map
          (fun p => (hash_file_secure ((getAssoc contents p).getD ("")), p))) := by
  induction todo with
  | nil => intro seen _; simp [dedupLoop]
  | cons p rest ih =>
    intro seen h
    rw [dedupLoop]
    have hfresh : hash_file_secure ((getAssoc contents p).getD ("")) ∉ seen.map Prod.fst := by
      intro hm
      have hdisj := List.disjoint_of_nodup_append h
      exact hdisj hm (by simp)
    rw [getAssoc_eq_none hfresh]
    rw [setAssoc_eq_append _ hfresh]
    have hnodup2 : (((seen ++ [(hash_file_secure ((getAssoc contents p).getD ("")), p)]).map
        Prod.fst) ++
        rest.map (fun q => hash_file_secure ((getAssoc contents q).getD ("")))).Nodup := by
      simp only [List.map_append, List.map_cons, List.map_nil, List.append_assoc,
        List.singleton_append]
      simpa using h
    rw [ih _ hnodup2]
    simp

/-- The relative paths listed by `iter_file_meta` and by the content view of
the same traversal coincide. -/
theorem iter_file_meta_fst_eq (entries : List Entry) :
    (iter_file_meta entries).map Prod.fst = (filesContent entries).map Prod.fst := by
  simp [iter_file_meta, filesContent, List.map_map]

theorem check_dir_secure_ok {root : String} {entries : List Entry} {completed : List String}
    {rd : Bool} {seen : List (String × String)}
    (h : dedupLoop rd (filesContent entries) completed [] = .ok seen) :
    check_dir_secure root entries completed none rd =
      .ok ((List.insertionSort (fun a b : String × String => a.2 ≤ b.2) seen).map
        (fun x => x.1)) := by
  rw [check_dir_secure, h]
  rfl

/-- The completion-order-free value of the secure digest: the per-file
digests sorted by the relative path they belong to. -/
def secureDigest (entries : List Entry) : Digest :=
  (List.insertionSort (fun a b : String × String => a.2 ≤ b.2)
    ((filesContent entries).map (fun pc => (pc.2, pc.1)))).map (fun x => x.1)

/-- Any run of `check_dir_secure` whose per-file digests are pairwise
distinct returns the canonical path-sorted digest, whatever the completion
order and the `raise_dupes` flag. -/
theorem check_dir_secure_canonical (root : String) (entries : List Entry)
    (completed : List String) (rd : Bool)
    (hpaths : ((filesContent entries).map Prod.fst).Nodup)
    (hcontents : ((filesContent entries).map Prod.snd).Nodup)
    (h1 : completed.Perm ((iter_file_meta entries).map Prod.fst)) :
    check_dir_secure root entries completed none rd = .ok (secureDigest entries) := by
  rw [iter_file_meta_fst_eq] at h1
  have hc : ∀ x ∈ filesContent entries,
      hash_file_secure ((getAssoc (filesContent entries) x.1).getD ("")) = x.2 := by
    intro x hx
    rw [getAssoc_of_mem_nodup hpaths (by simpa using hx)]
    rfl
  have hmapc : (completed.map (fun p =>
      hash_file_secure ((getAssoc (filesContent entries) p).getD ("")))).Perm
      ((filesContent entries).map Prod.snd) := by
    have hp2 := h1.map (fun p =>
      hash_file_secure ((getAssoc (filesContent entries) p).getD ("")))
    have heq : ((filesContent entries).map Prod.fst).map (fun p =>
        hash_file_secure ((getAssoc (filesContent entries) p).getD (""))) =
        (filesContent entries).map Prod.snd := by
      rw [List.map_map]
      exact List.map_congr_left (fun x hx => hc x hx)
    rw [heq] at hp2
    exact hp2
  have hrun : dedupLoop rd (filesContent entries) completed [] =
      .ok (completed.map (fun p =>
        (hash_file_secure ((getAssoc (filesContent entries) p).getD ("")), p))) := by
    refine dedupLoop_fresh rd (filesContent entries) completed [] ?_
    simp only [List.map_nil, List.nil_append]
    exact (hmapc.nodup_iff).mpr hcontents
  rw [check_dir_secure_ok hrun, secureDigest]
  have hpairperm : (completed.map (fun p =>
      (hash_file_secure ((getAssoc (filesContent entries) p).getD ("")), p))).Perm
      ((filesContent entries).map (fun pc => (pc.2, pc.1))) := by
    have hp2 := h1.map (fun p =>
      (hash_file_secure ((getAssoc (filesContent entries) p).getD ("")), p))
    have heq : ((filesContent entries).map Prod.fst).map (fun p =>
        (hash_file_secure ((getAssoc (filesContent entries) p).getD ("")), p)) =
        (filesContent entries).map (fun pc => (pc.2, pc.1)) := by
      rw [List.map_map]
      refine List.map_congr_left (fun x hx => ?_)
      show (hash_file_secure ((getAssoc (filesContent entries) x.1).getD ("")), x.1) = _
      rw [hc x hx]
    rw [heq] at hp2
    exact hp2
  haveI htot : IsTotal (String × String) (fun a b : String × String => a.2 ≤ b.2) :=
    ⟨fun a b => le_total a.2 b.2⟩
  haveI htrans : IsTrans (String × String) (fun a b : String × String => a.2 ≤ b.2) :=
    ⟨fun _ _ _ hab hbc => le_trans hab hbc⟩
  have hsort1 := List.sorted_insertionSort (fun a b : String × String => a.2 ≤ b.2)
    (completed.map (fun p =>
      (hash_file_secure ((getAssoc (filesContent entries) p).getD ("")), p)))
  have hsort2 := List.sorted_insertionSort (fun a b : String × String => a.2 ≤ b.2)
    ((filesContent entries).map (fun pc => (pc.2, pc.1)))
  have hsortperm := ((List.perm_insertionSort (fun a b : String × String => a.2 ≤ b.2)
      (completed.map (fun p =>
        (hash_file_secure ((getAssoc (filesContent entries) p).getD ("")), p)))).trans
      hpairperm).trans
      (List.perm_insertionSort (fun a b : String × String => a.2 ≤ b.2)
        ((filesContent entries).map (fun pc => (pc.2, pc.1)))).symm
  have hnodupsnd : ((List.insertionSort (fun a b : String × String => a.2 ≤ b.2)
      (completed.map (fun p =>
        (hash_file_secure ((getAssoc (filesContent entries) p).getD ("")), p)))).map
        Prod.snd).Nodup := by
    have hps := (List.perm_insertionSort (fun a b : String × String => a.2 ≤ b.2)
      (completed.map (fun p =>
        (hash_file_secure ((getAssoc (filesContent entries) p).getD ("")), p)))).map
          Prod.snd
    refine (hps.nodup_iff).mpr ?_
    rw [List.map_map]
    have hid : (Prod.snd ∘ fun p =>
        (hash_file_secure ((getAssoc (filesContent entries) p).getD ("")), p)) = id := rfl
    rw [hid, List.map_id]
    exact (h1.nodup_iff).mpr (hpaths)
  have heqsorted := eq_of_perm_of_sorted_key Prod.snd hsortperm hsort1 hsort2 hnodupsnd
  rw [heqsorted]

/-- Claim C1 (amended): when every file in the tree has a distinct digest —
in particular whenever a run with `raise_dupes=True` completes — two runs of
`check_dir_secure` over the unchanged tree return the same digest, for any
two worker completion orders and any two `raise_dupes` settings.  (The
counterexample shows the original claim fails once byte-identical duplicates
are tolerated.) -/
theorem C1_secure_digest_deterministic (root : String) (entries : List Entry)
    (completed1 completed2 : List String) (rd1 rd2 : Bool)
    (hpaths : ((filesContent entries).map Prod.fst).Nodup)
    (hcontents : ((filesContent entries).map Prod.snd).Nodup)
    (h1 : completed1.Perm ((iter_file_meta entries).map Prod.fst))
    (h2 : completed2.Perm ((iter_file_meta entries).map Prod.fst)) :
    check_dir_secure root entries completed1 none rd1 =
      check_dir_secure root entries completed2 none rd2 := by
  rw [check_dir_secure_canonical root entries completed1 rd1 hpaths hcontents h1,
    check_dir_secure_canonical root entries completed2 rd2 hpaths hcontents h2]

/-- Witness for the amended C1 at a concrete duplicate-free tree. -/
theorem C1_secure_digest_deterministic_witness :
    check_dir_secure ("data") [.file ("a") ("X") 1, .file ("b") ("Y") 1]
        [("b"), ("a")] none true =
      check_dir_secure ("data") [.file ("a") ("X") 1, .file ("b") ("Y") 1]
        [("a"), ("b")] none false := by
  have h1 : (['a'] : List Char) ≤ ['b'] := by decide
  have hwalk : walkFiles ("") [.file ("a") ("X") 1, .file ("b") ("Y") 1] =
      [⟨("a"), 1, 1, ("X")⟩, ⟨("b"), 1, 1, ("Y")⟩] := by
    simp [walkFiles, goDirs, Entry.entryName, Entry.isDirE, Entry.isFileE,
      Entry.contentE, Entry.mtimeE, List.insertionSort, List.orderedInsert, h1]
    all_goals decide
  exact C1_secure_digest_deterministic ("data") _ [("b"), ("a")] [("a"), ("b")] true false
    (by rw [filesContent, hwalk]; decide)
    (by rw [filesContent, hwalk]; decide)
    (by rw [iter_file_meta, hwalk]; decide)
    (by rw [iter_file_meta, hwalk]; decide)

/-- A relative path contains no `;` byte (true of ordinary file trees); under
this condition the metadata ident determines the path. -/
def semicolonFree (s : String) : Prop := (';') ∉ s.data

instance (s : String) : Decidable (semicolonFree s) := by
  unfold semicolonFree; infer_instance

theorem append_semi_inj {l1 : List Char} :
    ∀ {l2 r1 r2 : List Char}, (';') ∉ l1 → (';') ∉ l2 →
      l1 ++ (';') :: r1 = l2 ++ (';') :: r2 → l1 = l2 ∧ r1 = r2 := by
  induction l1 with
  | nil =>
    intro l2 r1 r2 _ h2 he
    cases l2 with
    | nil => simpa using he
    | cons b t2 =>
      simp only [List.nil_append, List.cons_append, List.cons.injEq] at he
      exact absurd (by rw [he.1]; exact List.mem_cons_self b t2) h2
  | cons a t1 ih =>
    intro l2 r1 r2 h1 h2 he
    cases l2 with
    | nil =>
      simp only [List.cons_append, List.nil_append, List.cons.injEq] at he
      exact absurd (he.1 ▸ List.mem_cons_self a t1) h1
    | cons b t2 =>
      simp only [List.cons_append, List.cons.injEq] at he
      obtain ⟨hab, hrest⟩ := he
      have h1b : (';') ∉ t1 := fun hm => h1 (List.mem_cons_of_mem _ hm)
      have h2b : (';') ∉ t2 := fun hm => h2 (List.mem_cons_of_mem _ hm)
      obtain ⟨hl, hr⟩ := ih h1b h2b hrest
      exact ⟨by rw [hab, hl], hr⟩

theorem ident_data (p : String) (s t : Nat) :
    (ident p s t).data =
      p.data ++ (';') :: ((toString s).data ++ (';') :: (toString t).data) := by
  have hsemi : ((";") : String).data = [(';')] := rfl
  simp [ident, String.data_append, hsemi, List.append_assoc]

theorem ident_inj_path {p1 p2 : String} {s1 s2 t1 t2 : Nat}
    (h1 : semicolonFree p1) (h2 : semicolonFree p2)
    (he : ident p1 s1 t1 = ident p2 s2 t2) : p1 = p2 := by
  have hd := congrArg String.data he
  rw [ident_data, ident_data] at hd
  exact String.ext (append_semi_inj h1 h2 hd).1

theorem check_dir_fast_none_ok (root : String) (entries : List Entry) :
    check_dir_fast root entries none false = .ok (fastDigest entries) := by
  rw [check_dir_fast, checkDirFastLoop_ok (Or.inl rfl)]
  rfl

/-- Renaming `a` to a fresh name `b` preserves the relative path order when
`b` sorts against every other path exactly as `a` does. -/
theorem rename_mono (S : List String) (a b : String)
    (hord : ∀ q ∈ S, q ≠ a → ((q < a ↔ q < b) ∧ (a < q ↔ b < q))) :
    ∀ q ∈ S, ∀ r ∈ S, q ≤ r →
      (if q = a then b else q) ≤ (if r = a then b else r) := by
  intro q hq r hr hle
  by_cases hqa : q = a
  · by_cases hra : r = a
    · rw [if_pos hqa, if_pos hra]
    · rw [if_pos hqa, if_neg hra]
      have haltr : a < r := lt_of_le_of_ne (hqa ▸ hle) (Ne.symm hra)
      exact le_of_lt ((hord r hr hra).2.mp haltr)
  · by_cases hra : r = a
    · rw [if_neg hqa, if_pos hra]
      have hqlta : q < a := lt_of_le_of_ne (hra ▸ hle) hqa
      exact le_of_lt ((hord q hq hqa).1.mp hqlta)
    · rw [if_neg hqa, if_neg hra]
      exact hle

/-- Claim C2 (counterexample): renaming file `a` (content `X`) to `c` moves
it behind `b` (content `Y`) in the path-sorted final fold, so
`check_dir_secure` returns a different digest after the rename, contrary to
the claim.  The content view documents that the rename changed only the
path. -/
theorem C2_counterexample_rename_changes_secure :
    filesContent [.file ("a") ("X") 1, .file ("b") ("Y") 1] =
      [(("a"), ("X")), (("b"), ("Y"))] ∧
    filesContent [.file ("b") ("Y") 1, .file ("c") ("X") 1] =
      [(("b"), ("Y")), (("c"), ("X"))] ∧
    check_dir_secure ("data") [.file ("a") ("X") 1, .file ("b") ("Y") 1]
      [("a"), ("b")] none true = .ok [("X"), ("Y")] ∧
    check_dir_secure ("data") [.file ("b") ("Y") 1, .file ("c") ("X") 1]
      [("b"), ("c")] none true = .ok [("Y"), ("X")] ∧
    ([("X"), ("Y")] : Digest) ≠ [("Y"), ("X")] ∧
    [("a"), ("b")].Perm
      ((iter_file_meta [.file ("a") ("X") 1, .file ("b") ("Y") 1]).map Prod.fst) ∧
    [("b"), ("c")].Perm
      ((iter_file_meta [.file ("b") ("Y") 1, .file ("c") ("X") 1]).map Prod.fst) := by
  have h1 : (['a'] : List Char) ≤ ['b'] := by decide
  have h2 : (['b'] : List Char) ≤ ['c'] := by decide
  have hwalk1 : walkFiles ("") [.file ("a") ("X") 1, .file ("b") ("Y") 1] =
      [⟨("a"), 1, 1, ("X")⟩, ⟨("b"), 1, 1, ("Y")⟩] := by
    simp [walkFiles, goDirs, Entry.entryName, Entry.isDirE, Entry.isFileE,
      Entry.contentE, Entry.mtimeE, List.insertionSort, List.orderedInsert, h1]
    all_goals decide
  have hwalk2 : walkFiles ("") [.file ("b") ("Y") 1, .file ("c") ("X") 1] =
      [⟨("b"), 1, 1, ("Y")⟩, ⟨("c"), 1, 1, ("X")⟩] := by
    simp [walkFiles, goDirs, Entry.entryName, Entry.isDirE, Entry.isFileE,
      Entry.contentE, Entry.mtimeE, List.insertionSort, List.orderedInsert, h2]
    all_goals decide
  refine ⟨by rw [filesContent, hwalk1]; rfl, by rw [filesContent, hwalk2]; rfl,
    ?_, ?_, by decide, by rw [iter_file_meta, hwalk1]; decide,
    by rw [iter_file_meta, hwalk2]; decide⟩
  · simp [check_dir_secure, filesContent, hwalk1, dedupLoop, hash_file_secure, getAssoc,
      setAssoc, List.insertionSort, List.orderedInsert]
    rfl
  · simp [check_dir_secure, filesContent, hwalk2, dedupLoop, hash_file_secure, getAssoc,
      setAssoc, List.insertionSort, List.orderedInsert]
    rfl

/-- Claim C2 (amended): for a rename of one file that leaves its content
bytes unchanged (`hw`: the traversal of the renamed tree is the traversal of
the original with path `a` replaced by the fresh name `b`), `check_dir_fast`
always changes, while `check_dir_secure` is unchanged provided the rename
preserves the relative sort order of the paths (`hord`); the counterexample
shows it does change when the rename reorders the files.  Path and content
uniqueness and the absence of `;` in paths reflect ordinary file trees. -/
theorem C2_rename_changes_fast_keeps_secure (root : String) (t1 t2 : List Entry)
    (a b : String)
    (hw : (walkFiles ("") t2).Perm ((walkFiles ("") t1).map
      (fun r => if r.path = a then ⟨b, r.size, r.mtime, r.content⟩ else r)))
    (ha : a ∈ (filesContent t1).map Prod.fst)
    (hb : b ∉ (filesContent t1).map Prod.fst)
    (hpaths1 : ((filesContent t1).map Prod.fst).Nodup)
    (hcontents1 : ((filesContent t1).map Prod.snd).Nodup)
    (hsemi : ∀ p ∈ (filesContent t1).map Prod.fst, semicolonFree p)
    (hsemib : semicolonFree b)
    (hord : ∀ q ∈ (filesContent t1).map Prod.fst, q ≠ a →
      ((q < a ↔ q < b) ∧ (a < q ↔ b < q))) :
    check_dir_fast root t1 none false ≠ check_dir_fast root t2 none false ∧
    ∀ (completed1 completed2 : List String) (rd1 rd2 : Bool),
      completed1.Perm ((iter_file_meta t1).map Prod.fst) →
      completed2.Perm ((iter_file_meta t2).map Prod.fst) →
      check_dir_secure root t1 completed1 none rd1 =
        check_dir_secure root t2 completed2 none rd2 := by
  have hfc2 : (filesContent t2).Perm ((filesContent t1).map
      (fun pc => ((if pc.1 = a then b else pc.1), pc.2))) := by
    have hmap := hw.map (fun r : FileRec => (r.path, r.content))
    rw [List.map_map] at hmap
    rw [filesContent, filesContent, List.map_map]
    have hfun : ((fun r : FileRec => (r.path, r.content)) ∘
        (fun r : FileRec => if r.path = a then ⟨b, r.size, r.mtime, r.content⟩ else r)) =
        ((fun pc : String × String => ((if pc.1 = a then b else pc.1), pc.2)) ∘
          (fun r : FileRec => (r.path, r.content))) := by
      funext r
      by_cases hr : r.path = a
      · simp [Function.comp, hr]
      · simp [Function.comp, hr]
    rw [hfun] at hmap
    exact hmap
  have hmeta2 : (iter_file_meta t2).Perm ((iter_file_meta t1).map
      (fun m => ((if m.1 = a then b else m.1), m.2))) := by
    have hmap := hw.map (fun r : FileRec => (r.path, r.size, r.mtime))
    rw [List.map_map] at hmap
    rw [iter_file_meta, iter_file_meta, List.map_map]
    have hfun : ((fun r : FileRec => (r.path, r.size, r.mtime)) ∘
        (fun r : FileRec => if r.path = a then ⟨b, r.size, r.mtime, r.content⟩ else r)) =
        ((fun m : String × Nat × Nat => ((if m.1 = a then b else m.1), m.2)) ∘
          (fun r : FileRec => (r.path, r.size, r.mtime))) := by
      funext r
      by_cases hr : r.path = a
      · simp [Function.comp, hr]
      · simp [Function.comp, hr]
    rw [hfun] at hmap
    exact hmap
  constructor
  · rw [check_dir_fast_none_ok, check_dir_fast_none_ok]
    intro hEq
    have hDig : fastDigest t1 = fastDigest t2 := by
      simpa using hEq
    obtain ⟨m, hm, hma⟩ : ∃ m ∈ iter_file_meta t1, m.1 = a := by
      have ha2 : a ∈ (iter_file_meta t1).map Prod.fst := by
        rw [iter_file_meta_fst_eq]; exact ha
      obtain ⟨m, hm, hmeq⟩ := List.mem_map.mp ha2
      exact ⟨m, hm, hmeq⟩
    have hbm : ((b, m.2) : String × Nat × Nat) ∈ iter_file_meta t2 := by
      refine (hmeta2.mem_iff).mpr ?_
      refine List.mem_map.mpr ⟨m, hm, ?_⟩
      simp [hma]
    have hbi : ident b m.2.1 m.2.2 ∈ fastDigest t2 :=
      List.mem_map.mpr ⟨(b, m.2), hbm, rfl⟩
    rw [← hDig] at hbi
    obtain ⟨m1, hm1, hmeq⟩ := List.mem_map.mp hbi
    have hsm1 : semicolonFree m1.1 := by
      apply hsemi
      rw [← iter_file_meta_fst_eq]
      exact List.mem_map.mpr ⟨m1, hm1, rfl⟩
    have hm1b : m1.1 = b := ident_inj_path hsm1 hsemib hmeq
    apply hb
    rw [← iter_file_meta_fst_eq]
    exact hm1b ▸ List.mem_map.mpr ⟨m1, hm1, rfl⟩
  · intro completed1 completed2 rd1 rd2 hc1 hc2
    have hpaths2eq : ((filesContent t2).map Prod.fst).Perm
        (((filesContent t1).map Prod.fst).map (fun q => if q = a then b else q)) := by
      have hmap := hfc2.map Prod.fst
      rw [List.map_map] at hmap
      rw [List.map_map]
      exact hmap
    have hpaths2 : ((filesContent t2).map Prod.fst).Nodup := by
      refine (hpaths2eq.nodup_iff).mpr ?_
      refine List.Nodup.map_on ?_ hpaths1
      intro x hx y hy hxy
      by_cases hxa : x = a
      · by_cases hya : y = a
        · rw [hxa, hya]
        · rw [if_pos hxa, if_neg hya] at hxy
          exfalso; apply hb; rw [hxy]; exact hy
      · by_cases hya : y = a
        · rw [if_neg hxa, if_pos hya] at hxy
          exfalso; apply hb; rw [← hxy]; exact hx
        · rw [if_neg hxa, if_neg hya] at hxy
          exact hxy
    have hcont2 : ((filesContent t2).map Prod.snd).Nodup := by
      have hmap := hfc2.map Prod.snd
      rw [List.map_map] at hmap
      exact (hmap.nodup_iff).mpr hcontents1
    rw [check_dir_secure_canonical root t1 completed1 rd1 hpaths1 hcontents1 hc1,
      check_dir_secure_canonical root t2 completed2 rd2 hpaths2 hcont2 hc2]
    suffices hsd : secureDigest t2 = secureDigest t1 by rw [hsd]
    have hX2p : ((filesContent t2).map (fun pc => (pc.2, pc.1))).Perm
        (((filesContent t1).map (fun pc => (pc.2, pc.1))).map
          (fun x => (x.1, if x.2 = a then b else x.2))) := by
      have hmap := hfc2.map (fun pc : String × String => (pc.2, pc.1))
      rw [List.map_map] at hmap
      rw [List.map_map]
      exact hmap
    haveI htot : IsTotal (String × String) (fun x y : String × String => x.2 ≤ y.2) :=
      ⟨fun x y => le_total x.2 y.2⟩
    haveI htrans : IsTrans (String × String) (fun x y : String × String => x.2 ≤ y.2) :=
      ⟨fun _ _ _ hxy hyz => le_trans hxy hyz⟩
    have hsortL1 := List.sorted_insertionSort (fun x y : String × String => x.2 ≤ y.2)
      ((filesContent t1).map (fun pc => (pc.2, pc.1)))
    have hsortX2 := List.sorted_insertionSort (fun x y : String × String => x.2 ≤ y.2)
      ((filesContent t2).map (fun pc => (pc.2, pc.1)))
    have hmem1 : ∀ x ∈ List.insertionSort (fun x y : String × String => x.2 ≤ y.2)
        ((filesContent t1).map (fun pc => (pc.2, pc.1))),
        x.2 ∈ (filesContent t1).map Prod.fst := by
      intro x hx
      have hx2 := (List.mem_insertionSort _).mp hx
      obtain ⟨pc, hpc, hpceq⟩ := List.mem_map.mp hx2
      rw [← hpceq]
      exact List.mem_map.mpr ⟨pc, hpc, rfl⟩
    have hsortg : ((List.insertionSort (fun x y : String × String => x.2 ≤ y.2)
        ((filesContent t1).map (fun pc => (pc.2, pc.1)))).map
          (fun x => (x.1, if x.2 = a then b else x.2))).Pairwise
        (fun x y : String × String => x.2 ≤ y.2) := by
      rw [List.pairwise_map]
      have hp := List.Pairwise.and_mem.mp hsortL1
      refine hp.imp ?_
      rintro x y ⟨hx, hy, hle⟩
      exact rename_mono ((filesContent t1).map Prod.fst) a b hord
        x.2 (hmem1 x hx) y.2 (hmem1 y hy) hle
    have hpermg : (List.insertionSort (fun x y : String × String => x.2 ≤ y.2)
        ((filesContent t2).map (fun pc => (pc.2, pc.1)))).Perm
        ((List.insertionSort (fun x y : String × String => x.2 ≤ y.2)
          ((filesContent t1).map (fun pc => (pc.2, pc.1)))).map
            (fun x => (x.1, if x.2 = a then b else x.2))) :=
      ((List.perm_insertionSort _ _).trans hX2p).trans
        ((List.perm_insertionSort _ _).map _).symm
    have hnsnd : ((List.insertionSort (fun x y : String × String => x.2 ≤ y.2)
        ((filesContent t2).map (fun pc => (pc.2, pc.1)))).map Prod.snd).Nodup := by
      have hperm := (List.perm_insertionSort (fun x y : String × String => x.2 ≤ y.2)
        ((filesContent t2).map (fun pc => (pc.2, pc.1)))).map Prod.snd
      refine (hperm.nodup_iff).mpr ?_
      rw [List.map_map]
      exact hpaths2
    have heq := eq_of_perm_of_sorted_key Prod.snd hpermg hsortX2 hsortg hnsnd
    rw [secureDigest, secureDigest, heq, List.map_map]
    rfl

/-- Witness for the amended C2: renaming `a` to `b` below `c` preserves the
path order, so the secure digest is unchanged while the fast digest always
changes. -/
theorem C2_rename_changes_fast_keeps_secure_witness :
    check_dir_fast ("data") [.file ("a") ("X") 1, .file ("c") ("Y") 1] none false ≠
      check_dir_fast ("data") [.file ("b") ("X") 1, .file ("c") ("Y") 1] none false ∧
    check_dir_secure ("data") [.file ("a") ("X") 1, .file ("c") ("Y") 1]
        [("c"), ("a")] none true =
      check_dir_secure ("data") [.file ("b") ("X") 1, .file ("c") ("Y") 1]
        [("b"), ("c")] none false := by
  have h1 : (['a'] : List Char) ≤ ['c'] := by decide
  have h2 : (['b'] : List Char) ≤ ['c'] := by decide
  have hwalk1 : walkFiles ("") [.file ("a") ("X") 1, .file ("c") ("Y") 1] =
      [⟨("a"), 1, 1, ("X")⟩, ⟨("c"), 1, 1, ("Y")⟩] := by
    simp [walkFiles, goDirs, Entry.entryName, Entry.isDirE, Entry.isFileE,
      Entry.contentE, Entry.mtimeE, List.insertionSort, List.orderedInsert, h1]
    all_goals decide
  have hwalk2 : walkFiles ("") [.file ("b") ("X") 1, .file ("c") ("Y") 1] =
      [⟨("b"), 1, 1, ("X")⟩, ⟨("c"), 1, 1, ("Y")⟩] := by
    simp [walkFiles, goDirs, Entry.entryName, Entry.isDirE, Entry.isFileE,
      Entry.contentE, Entry.mtimeE, List.insertionSort, List.orderedInsert, h2]
    all_goals decide
  have h := C2_rename_changes_fast_keeps_secure ("data")
    [.file ("a") ("X") 1, .file ("c") ("Y") 1]
    [.file ("b") ("X") 1, .file ("c") ("Y") 1] ("a") ("b")
    (by rw [hwalk1, hwalk2]; decide)
    (by rw [filesContent, hwalk1]; decide)
    (by rw [filesContent, hwalk1]; decide)
    (by rw [filesContent, hwalk1]; decide)
    (by rw [filesContent, hwalk1]; decide)
    (by rw [filesContent, hwalk1]; decide)
    (by decide)
    (by
      rw [filesContent, hwalk1]
      intro q hq hne
      simp only [List.map_map, List.map_cons, List.map_nil, List.mem_cons,
        List.not_mem_nil, or_false, Function.comp] at hq
      rcases hq with hq | hq
      · exact absurd hq hne
      · subst hq
        constructor
        · constructor <;>
            (intro hlt; exfalso; rw [String.lt_iff_toList_lt] at hlt; revert hlt; decide)
        · constructor <;>
            (intro _; rw [String.lt_iff_toList_lt]; decide))
  exact ⟨h.1, h.2 [("c"), ("a")] [("b"), ("c")] true false
    (by rw [iter_file_meta, hwalk1]; decide)
    (by rw [iter_file_meta, hwalk2]; decide)⟩

/-! ## Fingerprint pipeline (`twinspect/algos/processing.py`) -/

/-- A `ts.Task` row (schema field order `id, code, file, size, time`).
`file` is stored data-folder-relative, so the relativisation in the result
loop is the identity here; `time` is a wall-clock measurement modelled as 0. -/
structure Task where
  id : Nat
  code : Option String
  file : String
  size : Nat
  time : Nat
deriving DecidableEq

/-- `process_file`: run the hash function on the task's file.  The function
may raise (`Except.error`) or return `None`; on success the code is stored on
the task.  The resulting `Except` is what the submitted future holds. -/
def process_file (func : String → Except String (Option String)) (task : Task) :
    Except String Task :=
  match func task.file with
  | .error e => .error e
  | .ok c => .ok { task with code := c }

/-- The futures submitted by `process_data_folder`, in submission order: one
task per file of the data folder, ids assigned by `enumerate`. -/
def submitTasks (func : String → Except String (Option String))
    (files : List (String × Nat)) : List (Except String Task) :=
  files.enum.map (fun p =>
    process_file func { id := p.1, code := none, file := p.2.1, size := p.2.2, time := 0 })

/-- The `as_completed` result loop: `future.result()` re-raises the first
exception encountered, rows with `code is None` are logged and skipped, all
other rows are collected in completion order. -/
def collectResults : List (Except String Task) → Except String (List Task)
  | [] => .ok []
  | .error e :: _ => .error e
  | .ok t :: rest =>
    if t.code = none then collectResults rest
    else
      match collectResults rest with
      | .error e => .error e
      | .ok l => .ok (t :: l)

/-- `process_data_folder`: collect the futures in completion order
(`completed`, a permutation of `submitTasks func files`), then re-sort the
surviving rows by id before writing the table. -/
def process_data_folder (func : String → Except String (Option String))
    (files : List (String × Nat)) (completed : List (Except String Task)) :
    Except String (List Task) :=
  match collectResults completed with
  | .error e => .error e
  | .ok results => .ok (List.insertionSort (fun x y : Task => x.id ≤ y.id) results)

/-- The row filter applied to each completed future: drop raised and
null-code tasks. -/
def keepRow : Except String Task → Option Task
  | .ok t => if t.code = none then none else some t
  | .error _ => none

theorem collectResults_ok_iff {completed : List (Except String Task)}
    {r : List Task} (h : collectResults completed = .ok r) :
    (∀ x ∈ completed, ∃ t, x = Except.ok t) ∧ r = completed.filterMap keepRow := by
  induction completed generalizing r with
  | nil =>
    rw [collectResults] at h
    cases h
    exact ⟨by intro x hx; simp at hx, rfl⟩
  | cons x rest ih =>
    cases x with
    | error e => rw [collectResults] at h; exact Except.noConfusion h
    | ok t =>
      rw [collectResults] at h
      by_cases hc : t.code = none
      · rw [if_pos hc] at h
        obtain ⟨hall, hr⟩ := ih h
        refine ⟨?_, ?_⟩
        · intro y hy
          rcases List.mem_cons.mp hy with hy | hy
          · exact ⟨t, hy⟩
          · exact hall y hy
        · rw [hr, List.filterMap_cons]
          simp [keepRow, hc]
      · rw [if_neg hc] at h
        cases hcol : collectResults rest with
        | error e => rw [hcol] at h; exact Except.noConfusion h
        | ok l =>
          rw [hcol] at h
          cases h
          obtain ⟨hall, hr⟩ := ih hcol
          refine ⟨?_, ?_⟩
          · intro y hy
            rcases List.mem_cons.mp hy with hy | hy
            · exact ⟨t, hy⟩
            · exact hall y hy
          · rw [hr, List.filterMap_cons]
            simp [keepRow, hc]

theorem collectResults_all_ok {completed : List (Except String Task)}
    (h : ∀ x ∈ completed, ∃ t, x = Except.ok t) :
    collectResults completed = .ok (completed.filterMap keepRow) := by
  induction completed with
  | nil => rfl
  | cons x rest ih =>
    obtain ⟨t, ht⟩ := h x (List.mem_cons_self x rest)
    subst ht
    rw [collectResults]
    have ih2 := ih (fun y hy => h y (List.mem_cons_of_mem _ hy))
    by_cases hc : t.code = none
    · rw [if_pos hc, ih2, List.filterMap_cons]
      simp [keepRow, hc]
    · rw [if_neg hc, ih2, List.filterMap_cons]
      simp [keepRow, hc]

theorem keepRow_id {func : String → Except String (Option String)}
    {p : Nat × (String × Nat)} {t : Task}
    (h : keepRow (process_file func
      { id := p.1, code := none, file := p.2.1, size := p.2.2, time := 0 }) = some t) :
    t.id = p.1 := by
  rw [process_file] at h
  cases hf : func p.2.1 with
  | error e => rw [hf] at h; exact Option.noConfusion h
  | ok c =>
    rw [hf] at h
    rw [keepRow] at h
    by_cases hc : c = none
    · subst hc; simp at h
    · simp only [hc, if_neg] at h
      cases h
      rfl

theorem canonicalRows_pairwise_ne_id (func : String → Except String (Option String))
    (files : List (String × Nat)) :
    ((submitTasks func files).filterMap keepRow).Pairwise (fun x y => x.id ≠ y.id) := by
  rw [submitTasks, List.filterMap_map]
  have henum : files.enum.Pairwise (fun a b => a.1 ≠ b.1) := by
    have h1 : (files.enum.map Prod.fst).Nodup := by
      rw [List.enum_map_fst]; exact List.nodup_range _
    exact List.pairwise_map.mp h1
  refine List.Pairwise.filterMap _ ?_ henum
  intro a b hne x hx y hy
  rw [Function.comp] at hx hy
  rw [keepRow_id hx, keepRow_id hy]
  exact hne

/-- Claim C4 (amended): when the hash function never raises, a file on which
it returns null is dropped from the output table (never retried) and the run
completes, producing exactly one row per file with a non-null code; the
counterexample shows that a raising hash function aborts the whole run
instead of dropping the file. -/
theorem C4_null_codes_dropped_run_completes (func : String → Except String (Option String))
    (files : List (String × Nat)) (completed : List (Except String Task))
    (hperm : completed.Perm (submitTasks func files))
    (hok : ∀ f ∈ files, ∃ c, func f.1 = Except.ok c) :
    ∃ rows, process_data_folder func files completed = .ok rows ∧
      ∀ t : Task, t ∈ rows ↔
        ∃ i fs c, files.get? i = some fs ∧ func fs.1 = Except.ok (some c) ∧
          t = ⟨i, some c, fs.1, fs.2, 0⟩ := by
  have hall : ∀ x ∈ completed, ∃ t, x = Except.ok t := by
    intro x hx
    have hx2 := (hperm.mem_iff).mp hx
    rw [submitTasks] at hx2
    obtain ⟨p, hp, hpe⟩ := List.mem_map.mp hx2
    obtain ⟨c, hc⟩ := hok p.2 (by
      have := List.enum_map_snd files
      exact this ▸ List.mem_map.mpr ⟨p, hp, rfl⟩)
    rw [← hpe, process_file, hc]
    exact ⟨_, rfl⟩
  have hcol := collectResults_all_ok hall
  rw [process_data_folder, hcol]
  refine ⟨_, rfl, ?_⟩
  intro t
  rw [List.mem_insertionSort]
  have hpermrows := hperm.filterMap keepRow
  rw [hpermrows.mem_iff]
  rw [submitTasks, List.filterMap_map, List.mem_filterMap]
  constructor
  · rintro ⟨p, hp, hkeep⟩
    rw [Function.comp, process_file] at hkeep
    obtain ⟨c, hc⟩ := hok p.2 (by
      have := List.enum_map_snd files
      exact this ▸ List.mem_map.mpr ⟨p, hp, rfl⟩)
    rw [hc, keepRow] at hkeep
    by_cases hcn : c = none
    · subst hcn; simp at hkeep
    · simp only [hcn, if_neg] at hkeep
      obtain ⟨c0, hc0⟩ := Option.ne_none_iff_exists.mp hcn
      cases hkeep
      refine ⟨p.1, p.2, c0, ?_, ?_, ?_⟩
      · exact (List.mk_mem_enum_iff_get?.mp (by
          obtain ⟨p1, p2⟩ := p
          exact hp))
      · rw [hc, hc0]
      · rw [← hc0]
  · rintro ⟨i, fs, c, hget, hfunc, hteq⟩
    refine ⟨(i, fs), List.mk_mem_enum_iff_get?.mpr hget, ?_⟩
    rw [Function.comp, process_file, hfunc, keepRow]
    rw [hteq]
    simp

/-- Claim C4 (divergence evidence): a hash function that raises on one file
aborts the whole `process_data_folder` run via `future.result()`; no table is
produced at all, contrary to the claim that the file is merely dropped. -/
theorem C4_counterexample_raise_aborts_run :
    process_data_folder
      (fun f => if f = ("a") then .error ("boom") else .ok (some ("c0")))
      [(("a"), 1), (("b"), 1)]
      (submitTasks (fun f => if f = ("a") then .error ("boom") else .ok (some ("c0")))
        [(("a"), 1), (("b"), 1)]) = .error ("boom") := rfl

/-- Witness for the amended C4: `b` hashes to null and is dropped, `a` and
`c` keep their rows, the run completes. -/
theorem C4_null_codes_dropped_witness :
    ∃ rows, process_data_folder
      (fun f => if f = ("b") then .ok none else .ok (some ("z")))
      [(("a"), 1), (("b"), 2), (("c"), 3)]
      (submitTasks (fun f => if f = ("b") then .ok none else .ok (some ("z")))
        [(("a"), 1), (("b"), 2), (("c"), 3)]) = .ok rows ∧
      ∀ t : Task, t ∈ rows ↔
        ∃ i fs c, [(("a"), 1), (("b"), 2), (("c"), 3)].get? i = some fs ∧
          (if fs.1 = ("b") then (Except.ok none : Except String (Option String))
            else Except.ok (some ("z"))) = Except.ok (some c) ∧
          t = ⟨i, some c, fs.1, fs.2, 0⟩ :=
  C4_null_codes_dropped_run_completes
    (fun f => if f = ("b") then .ok none else .ok (some ("z")))
    [(("a"), 1), (("b"), 2), (("c"), 3)] _ (List.Perm.refl _)
    (by
      intro f _
      by_cases hb : f.1 = ("b")
      · exact ⟨none, by simp [hb]⟩
      · exact ⟨some ("z"), by simp [hb]⟩)

/-- Claim C5: whenever two runs over the same folder and hash function both
complete (for any two completion orders of the futures), they write the same
table, and that table is sorted ascending by id. -/
theorem C5_table_sorted_and_completion_order_free
    (func : String → Except String (Option String)) (files : List (String × Nat))
    (completed1 completed2 : List (Except String Task)) (t1 t2 : List Task)
    (hp1 : completed1.Perm (submitTasks func files))
    (hp2 : completed2.Perm (submitTasks func files))
    (hok1 : process_data_folder func files completed1 = .ok t1)
    (hok2 : process_data_folder func files completed2 = .ok t2) :
    t1 = t2 ∧ t1.Pairwise (fun x y => x.id ≤ y.id) := by
  haveI htot : IsTotal Task (fun x y : Task => x.id ≤ y.id) :=
    ⟨fun x y => Nat.le_total x.id y.id⟩
  haveI htrans : IsTrans Task (fun x y : Task => x.id ≤ y.id) :=
    ⟨fun _ _ _ hxy hyz => le_trans hxy hyz⟩
  have hext : ∀ (completed : List (Except String Task)) (t : List Task),
      completed.Perm (submitTasks func files) →
      process_data_folder func files completed = .ok t →
      ∃ r, collectResults completed = .ok r ∧
        t = List.insertionSort (fun x y : Task => x.id ≤ y.id) r ∧
        r.Perm ((submitTasks func files).filterMap keepRow) := by
    intro completed t hp hok
    rw [process_data_folder] at hok
    cases hcol : collectResults completed with
    | error e => rw [hcol] at hok; exact Except.noConfusion hok
    | ok r =>
      rw [hcol] at hok
      cases hok
      obtain ⟨_, hr⟩ := collectResults_ok_iff hcol
      exact ⟨r, rfl, rfl, hr ▸ hp.filterMap keepRow⟩
  obtain ⟨r1, _, ht1, hr1⟩ := hext completed1 t1 hp1 hok1
  obtain ⟨r2, _, ht2, hr2⟩ := hext completed2 t2 hp2 hok2
  have hsn : ((submitTasks func files).filterMap keepRow).Pairwise
      (fun x y => x.id ≠ y.id) := canonicalRows_pairwise_ne_id func files
  have hnodup : (((submitTasks func files).filterMap keepRow).map Task.id).Nodup :=
    List.pairwise_map.mpr hsn
  have hperm12 : (List.insertionSort (fun x y : Task => x.id ≤ y.id) r1).Perm
      (List.insertionSort (fun x y : Task => x.id ≤ y.id) r2) :=
    ((List.perm_insertionSort _ _).trans (hr1.trans hr2.symm)).trans
      (List.perm_insertionSort _ _).symm
  have hs1 := List.sorted_insertionSort (fun x y : Task => x.id ≤ y.id) r1
  have hs2 := List.sorted_insertionSort (fun x y : Task => x.id ≤ y.id) r2
  have hnd1 : ((List.insertionSort (fun x y : Task => x.id ≤ y.id) r1).map Task.id).Nodup := by
    have hp := (List.perm_insertionSort (fun x y : Task => x.id ≤ y.id) r1).map Task.id
    exact (hp.nodup_iff).mpr (((hr1.map Task.id).nodup_iff).mpr hnodup)
  have heq := eq_of_perm_of_sorted_key Task.id hperm12 hs1 hs2 hnd1
  rw [ht1, ht2, heq]
  exact ⟨rfl, heq ▸ hs2⟩

/-- Witness for C5 at a concrete folder with two completion orders. -/
theorem C5_table_sorted_witness :
    ([⟨0, some ("z"), ("a"), 1, 0⟩, ⟨2, some ("z"), ("c"), 3, 0⟩] : List Task) =
      [⟨0, some ("z"), ("a"), 1, 0⟩, ⟨2, some ("z"), ("c"), 3, 0⟩] ∧
    ([⟨0, some ("z"), ("a"), 1, 0⟩, ⟨2, some ("z"), ("c"), 3, 0⟩] : List Task).Pairwise
      (fun x y => x.id ≤ y.id) :=
  C5_table_sorted_and_completion_order_free
    (fun f => if f = ("b") then .ok none else .ok (some ("z")))
    [(("a"), 1), (("b"), 2), (("c"), 3)]
    (submitTasks (fun f => if f = ("b") then .ok none else .ok (some ("z")))
      [(("a"), 1), (("b"), 2), (("c"), 3)])
    ((submitTasks (fun f => if f = ("b") then .ok none else .ok (some ("z")))
      [(("a"), 1), (("b"), 2), (("c"), 3)]).reverse)
    _ _ (List.Perm.refl _) (List.reverse_perm _) (by rfl) (by rfl)

/-! ## Effectiveness metrics (`twinspect/metrics/eff.py`) -/

/-- One entry of the list returned by `evaluate`. -/
structure EffRow where
  threshold : Nat
  precision : ℚ
  recall_score : ℚ
  f1_score : ℚ
deriving DecidableEq

/-- The inner join `df_ground_truth.merge(df_query_result, on="id")`:
each ground-truth row paired with the query-result rows of the same id. -/
def mergeOnId (gt qr : List (Nat × List (Nat × Nat))) :
    List (Nat × List (Nat × Nat) × List (Nat × Nat)) :=
  gt.bind (fun g => (qr.filter (fun q => q.1 = g.1)).map (fun q => (g.1, g.2, q.2)))

/-- The set comprehension `set(file_id for d, file_id in row if d <= threshold)`. -/
def thresholdSet (l : List (Nat × Nat)) (t : Nat) : Finset Nat :=
  ((l.filter (fun p => p.1 ≤ t)).map Prod.snd).toFinset

/-- Summed true positives over the merged rows at a threshold. -/
def tpCount (rows : List (Nat × List (Nat × Nat) × List (Nat × Nat))) (t : Nat) : Nat :=
  (rows.map (fun row => ((thresholdSet row.2.1 t) ∩ (thresholdSet row.2.2 t)).card)).sum

/-- Summed false positives over the merged rows at a threshold. -/
def fpCount (rows : List (Nat × List (Nat × Nat) × List (Nat × Nat))) (t : Nat) : Nat :=
  (rows.map (fun row => ((thresholdSet row.2.2 t) \ (thresholdSet row.2.1 t)).card)).sum

/-- Summed false negatives over the merged rows at a threshold. -/
def fnCount (rows : List (Nat × List (Nat × Nat) × List (Nat × Nat))) (t : Nat) : Nat :=
  (rows.map (fun row => ((thresholdSet row.2.1 t) \ (thresholdSet row.2.2 t)).card)).sum

/-- `evaluate`: precision, recall and f1-score for every threshold from 0 to
`max_threshold`; a zero denominator yields 0. -/
def evaluate (gt qr : List (Nat × List (Nat × Nat))) (maxThreshold : Nat) : List EffRow :=
  (List.range (maxThreshold + 1)).map (fun threshold =>
    let rows := mergeOnId gt qr
    let tp := tpCount rows threshold
    let fp := fpCount rows threshold
    let fn := fnCount rows threshold
    let precision : ℚ := if tp + fp > 0 then (tp : ℚ) / ((tp : ℚ) + (fp : ℚ)) else 0
    let recall_score : ℚ := if tp + fn > 0 then (tp : ℚ) / ((tp : ℚ) + (fn : ℚ)) else 0
    let f1 : ℚ :=
      if precision + recall_score > 0
      then 2 * precision * recall_score / (precision + recall_score) else 0
    ⟨threshold, precision, recall_score, f1⟩)

/-- Claim C7 (counterexample): recall is not monotone in the threshold.  With
one query whose ground truth holds ids 10 (distance 1) and 11 (distance 2)
but whose query results only found id 10, recall is 1 at threshold 1 and
drops to 1/2 at threshold 2. -/
theorem C7_counterexample_recall_can_decrease :
    (evaluate [(0, [(1, 10), (2, 11)])] [(0, [(1, 10)])] 2).map EffRow.recall_score =
      [0, 1, 1 / 2] ∧ ¬((1 : ℚ) ≤ 1 / 2) := by
  have hm : mergeOnId [(0, [(1, 10), (2, 11)])] [(0, [(1, 10)])] =
      [(0, [(1, 10), (2, 11)], [(1, 10)])] := by decide
  have htp0 : tpCount [(0, [(1, 10), (2, 11)], [(1, 10)])] 0 = 0 := by decide
  have htp1 : tpCount [(0, [(1, 10), (2, 11)], [(1, 10)])] 1 = 1 := by decide
  have htp2 : tpCount [(0, [(1, 10), (2, 11)], [(1, 10)])] 2 = 1 := by decide
  have hfn0 : fnCount [(0, [(1, 10), (2, 11)], [(1, 10)])] 0 = 0 := by decide
  have hfn1 : fnCount [(0, [(1, 10), (2, 11)], [(1, 10)])] 1 = 0 := by decide
  have hfn2 : fnCount [(0, [(1, 10), (2, 11)], [(1, 10)])] 2 = 1 := by decide
  have hrange : List.range 3 = [0, 1, 2] := rfl
  constructor
  · rw [evaluate, hrange]
    simp only [List.map_cons, List.map_nil, hm, htp0, htp1, htp2, hfn0, hfn1, hfn2]
    norm_num
  · norm_num

theorem thresholdSet_mono (l : List (Nat × Nat)) {t1 t2 : Nat} (h : t1 ≤ t2) :
    thresholdSet l t1 ⊆ thresholdSet l t2 := by
  intro x hx
  rw [thresholdSet, List.mem_toFinset, List.mem_map] at hx ⊢
  obtain ⟨p, hp, hpe⟩ := hx
  rw [List.mem_filter] at hp
  refine ⟨p, List.mem_filter.mpr ⟨hp.1, ?_⟩, hpe⟩
  have hp2 := hp.2
  simp only [decide_eq_true_eq] at hp2 ⊢
  omega

theorem thresholdSet_subset_of_covered {g q : List (Nat × Nat)}
    (h : ∀ d x, (d, x) ∈ g → ∃ d2, (d2, x) ∈ q ∧ d2 ≤ d) (t : Nat) :
    thresholdSet g t ⊆ thresholdSet q t := by
  intro x hx
  rw [thresholdSet, List.mem_toFinset, List.mem_map] at hx
  obtain ⟨p, hp, hpe⟩ := hx
  rw [List.mem_filter] at hp
  obtain ⟨d2, hq, hd2⟩ := h p.1 p.2 (by rw [Prod.mk.eta]; exact hp.1)
  rw [thresholdSet, List.mem_toFinset, List.mem_map]
  refine ⟨(d2, p.2), List.mem_filter.mpr ⟨hq, ?_⟩, hpe⟩
  have hp2 := hp.2
  simp only [decide_eq_true_eq] at hp2 ⊢
  omega

/-- Claim C7 (amended): recall is non-decreasing in the threshold provided
every ground-truth entry also occurs in the same row's query results at a
distance no larger than its ground-truth distance (as an exact search
guarantees); the counterexample shows monotonicity fails for general query
results that miss a ground-truth member. -/
theorem C7_recall_monotone_under_covering (gt qr : List (Nat × List (Nat × Nat)))
    (maxT : Nat)
    (hsub : ∀ row ∈ mergeOnId gt qr, ∀ d x, (d, x) ∈ row.2.1 →
      ∃ d2, (d2, x) ∈ row.2.2 ∧ d2 ≤ d)
    (i j : Nat) (hij : i ≤ j) (ri rj : EffRow)
    (hi : (evaluate gt qr maxT).get? i = some ri)
    (hj : (evaluate gt qr maxT).get? j = some rj) :
    ri.recall_score ≤ rj.recall_score := by
  have hfd : ∀ k r, (evaluate gt qr maxT).get? k = some r →
      r.recall_score =
        if tpCount (mergeOnId gt qr) k + fnCount (mergeOnId gt qr) k > 0
        then (tpCount (mergeOnId gt qr) k : ℚ) /
          ((tpCount (mergeOnId gt qr) k : ℚ) + (fnCount (mergeOnId gt qr) k : ℚ))
        else 0 := by
    intro k r hr
    rw [evaluate, List.get?_map] at hr
    have hlt : k < maxT + 1 := by
      by_contra hge
      rw [List.get?_eq_none.mpr (by simpa using Nat.le_of_not_lt hge)] at hr
      simp at hr
    rw [List.get?_range hlt] at hr
    cases hr
    rfl
  rw [hfd i ri hi, hfd j rj hj]
  have hfn : ∀ k, fnCount (mergeOnId gt qr) k = 0 := by
    intro k
    rw [fnCount]
    refine List.sum_eq_zero ?_
    intro x hx
    rw [List.mem_map] at hx
    obtain ⟨row, hrow, hxe⟩ := hx
    rw [← hxe, Finset.card_eq_zero, Finset.sdiff_eq_empty_iff_subset]
    exact thresholdSet_subset_of_covered (hsub row hrow) k
  have htp_mono : tpCount (mergeOnId gt qr) i ≤ tpCount (mergeOnId gt qr) j := by
    rw [tpCount, tpCount]
    refine List.sum_le_sum ?_
    intro row hrow
    exact Finset.card_le_card
      (Finset.inter_subset_inter (thresholdSet_mono _ hij) (thresholdSet_mono _ hij))
  rw [hfn i, hfn j]
  simp only [Nat.add_zero, Nat.cast_zero, add_zero, gt_iff_lt]
  by_cases hti : 0 < tpCount (mergeOnId gt qr) i
  · have htj : 0 < tpCount (mergeOnId gt qr) j := lt_of_lt_of_le hti htp_mono
    rw [if_pos hti, if_pos htj]
    rw [div_self (by exact_mod_cast Nat.pos_iff_ne_zero.mp hti),
      div_self (by exact_mod_cast Nat.pos_iff_ne_zero.mp htj)]
  · rw [if_neg hti]
    by_cases htj : 0 < tpCount (mergeOnId gt qr) j
    · rw [if_pos htj, div_self (by exact_mod_cast Nat.pos_iff_ne_zero.mp htj)]
      norm_num
    · rw [if_neg htj]

/-- Witness for the amended C7 at a concrete input. -/
theorem C7_recall_monotone_witness :
    (⟨0, 0, 0, 0⟩ : EffRow).recall_score ≤ (⟨2, 0, 0, 0⟩ : EffRow).recall_score := by
  have hm : mergeOnId [(0, ([] : List (Nat × Nat)))] [(0, ([] : List (Nat × Nat)))] =
      [(0, ([] : List (Nat × Nat)), ([] : List (Nat × Nat)))] := by decide
  have hcounts : tpCount [(0, ([] : List (Nat × Nat)), ([] : List (Nat × Nat)))] 0 = 0 ∧
      tpCount [(0, ([] : List (Nat × Nat)), ([] : List (Nat × Nat)))] 1 = 0 ∧
      tpCount [(0, ([] : List (Nat × Nat)), ([] : List (Nat × Nat)))] 2 = 0 ∧
      fpCount [(0, ([] : List (Nat × Nat)), ([] : List (Nat × Nat)))] 0 = 0 ∧
      fpCount [(0, ([] : List (Nat × Nat)), ([] : List (Nat × Nat)))] 1 = 0 ∧
      fpCount [(0, ([] : List (Nat × Nat)), ([] : List (Nat × Nat)))] 2 = 0 ∧
      fnCount [(0, ([] : List (Nat × Nat)), ([] : List (Nat × Nat)))] 0 = 0 ∧
      fnCount [(0, ([] : List (Nat × Nat)), ([] : List (Nat × Nat)))] 1 = 0 ∧
      fnCount [(0, ([] : List (Nat × Nat)), ([] : List (Nat × Nat)))] 2 = 0 := by decide
  obtain ⟨c1, c2, c3, c4, c5, c6, c7, c8, c9⟩ := hcounts
  have he : evaluate [(0, ([] : List (Nat × Nat)))] [(0, ([] : List (Nat × Nat)))] 2 =
      [⟨0, 0, 0, 0⟩, ⟨1, 0, 0, 0⟩, ⟨2, 0, 0, 0⟩] := by
    rw [evaluate, show List.range 3 = [0, 1, 2] from rfl]
    simp only [List.map_cons, List.map_nil, hm, c1, c2, c3, c4, c5, c6, c7, c8, c9]
    norm_num
  refine C7_recall_monotone_under_covering [(0, ([] : List (Nat × Nat)))]
    [(0, ([] : List (Nat × Nat)))] 2 ?_ 0 2 (by decide) ⟨0, 0, 0, 0⟩ ⟨2, 0, 0, 0⟩
    (by rw [he]; rfl) (by rw [he]; rfl)
  intro row hrow d x hdx
  rw [hm] at hrow
  simp only [List.mem_cons, List.not_mem_nil, or_false] at hrow
  subst hrow
  simp at hdx

/-! ## Metrics file updates (`twinspect/metrics/utils.py`) -/

/-- A JSON value as handled by `json.load` / `json.dump`. -/
inductive Json where
  | null : Json
  | bool : Bool → Json
  | num : Int → Json
  | str : String → Json
  | arr : List Json → Json
  | obj : List (String × Json) → Json

/-- `update_nested_dict`: recursively update dictionary `d` with the entries
of `u`; a dict value recurses into `d.get(k, {})`, any other value is
assigned.  `none` models the `TypeError` Python raises when the recursion
tries item assignment on an existing non-dict value. -/
def update_nested_dict : List (String × Json) → List (String × Json) →
    Option (List (String × Json))
  | d, [] => some d
  | d, (k, v) :: rest =>
    match v with
    | .obj uv =>
      (match getAssoc d k with
       | some (.obj dv) =>
         (update_nested_dict dv uv).bind
           (fun m => update_nested_dict (setAssoc d k (.obj m)) rest)
       | some _ => none
       | none =>
         (update_nested_dict [] uv).bind
           (fun m => update_nested_dict (setAssoc d k (.obj m)) rest))
    | _ => update_nested_dict (setAssoc d k v) rest

/-- `update_json`: merge `data` into the parsed current file content (an
empty dict when the file does not exist) and write the result back. -/
def update_json (existing : Option (List (String × Json)))
    (data : List (String × Json)) : Option (List (String × Json)) :=
  update_nested_dict (existing.getD []) data

theorem getAssoc_setAssoc_self {β : Type} (d : List (String × β)) (k : String) (v : β) :
    getAssoc (setAssoc d k v) k = some v := by
  induction d with
  | nil => simp [setAssoc, getAssoc]
  | cons a rest ih =>
    obtain ⟨k0, v0⟩ := a
    rw [setAssoc]
    by_cases hk : k0 = k
    · rw [if_pos hk, getAssoc, if_pos rfl]
    · rw [if_neg hk, getAssoc, if_neg hk]
      exact ih

theorem getAssoc_setAssoc_ne {β : Type} (d : List (String × β)) {k key : String} (v : β)
    (h : k ≠ key) : getAssoc (setAssoc d k v) key = getAssoc d key := by
  induction d with
  | nil => simp [setAssoc, getAssoc, h]
  | cons a rest ih =>
    obtain ⟨k0, v0⟩ := a
    rw [setAssoc]
    by_cases hk : k0 = k
    · rw [if_pos hk, getAssoc, getAssoc, hk, if_neg h, if_neg h]
    · rw [if_neg hk, getAssoc, getAssoc]
      by_cases hkey : k0 = key
      · rw [if_pos hkey, if_pos hkey]
      · rw [if_neg hkey, if_neg hkey]
        exact ih

theorem mem_keys_setAssoc_self {β : Type} (d : List (String × β)) (k : String) (v : β) :
    k ∈ (setAssoc d k v).map Prod.fst := by
  induction d with
  | nil => simp [setAssoc]
  | cons a rest ih =>
    obtain ⟨k0, v0⟩ := a
    rw [setAssoc]
    by_cases hk : k0 = k
    · rw [if_pos hk]; simp
    · rw [if_neg hk]
      simp only [List.map_cons, List.mem_cons]
      exact Or.inr ih

theorem mem_keys_setAssoc_of_mem {β : Type} {d : List (String × β)} {x : String}
    (k : String) (v : β) (h : x ∈ d.map Prod.fst) :
    x ∈ (setAssoc d k v).map Prod.fst := by
  induction d with
  | nil => simp at h
  | cons a rest ih =>
    obtain ⟨k0, v0⟩ := a
    rw [setAssoc]
    simp only [List.map_cons, List.mem_cons] at h
    by_cases hk : k0 = k
    · rw [if_pos hk]
      simp only [List.map_cons, List.mem_cons]
      rcases h with h | h
      · exact Or.inl (by rw [h, hk])
      · exact Or.inr h
    · rw [if_neg hk]
      simp only [List.map_cons, List.mem_cons]
      rcases h with h | h
      · exact Or.inl h
      · exact Or.inr (ih h)

theorem update_step {d r : List (String × Json)} {k : String} {v : Json}
    {rest : List (String × Json)}
    (h : update_nested_dict d ((k, v) :: rest) = some r) :
    ∃ w, update_nested_dict (setAssoc d k w) rest = some r ∧
      ((∃ uv dv m, v = .obj uv ∧ w = .obj m ∧ update_nested_dict dv uv = some m ∧
        (getAssoc d k = some (.obj dv) ∨ (getAssoc d k = none ∧ dv = []))) ∨
       ((∀ uv, v ≠ .obj uv) ∧ w = v)) := by
  cases v with
  | obj uv =>
    rw [update_nested_dict] at h
    split at h
    · rename_i dv heq
      cases hm : update_nested_dict dv uv with
      | none => rw [hm] at h; simp at h
      | some m =>
        rw [hm] at h
        simp only [Option.some_bind] at h
        exact ⟨.obj m, h, Or.inl ⟨uv, dv, m, rfl, rfl, hm, Or.inl heq⟩⟩
    · exact Option.noConfusion h
    · rename_i heq
      cases hm : update_nested_dict [] uv with
      | none => rw [hm] at h; simp at h
      | some m =>
        rw [hm] at h
        simp only [Option.some_bind] at h
        exact ⟨.obj m, h, Or.inl ⟨uv, [], m, rfl, rfl, hm, Or.inr ⟨heq, rfl⟩⟩⟩
  | null =>
    rw [update_nested_dict] at h
    · exact ⟨.null, h, Or.inr ⟨fun uv hc => Json.noConfusion hc, rfl⟩⟩
    · intro uv hc
      exact Json.noConfusion hc
  | bool b =>
    rw [update_nested_dict] at h
    · exact ⟨.bool b, h, Or.inr ⟨fun uv hc => Json.noConfusion hc, rfl⟩⟩
    · intro uv hc
      exact Json.noConfusion hc
  | num n =>
    rw [update_nested_dict] at h
    · exact ⟨.num n, h, Or.inr ⟨fun uv hc => Json.noConfusion hc, rfl⟩⟩
    · intro uv hc
      exact Json.noConfusion hc
  | str s0 =>
    rw [update_nested_dict] at h
    · exact ⟨.str s0, h, Or.inr ⟨fun uv hc => Json.noConfusion hc, rfl⟩⟩
    · intro uv hc
      exact Json.noConfusion hc
  | arr xs =>
    rw [update_nested_dict] at h
    · exact ⟨.arr xs, h, Or.inr ⟨fun uv hc => Json.noConfusion hc, rfl⟩⟩
    · intro uv hc
      exact Json.noConfusion hc

theorem update_untouched {u : List (String × Json)} :
    ∀ {d r : List (String × Json)} {key : String},
      update_nested_dict d u = some r → key ∉ u.map Prod.fst →
      getAssoc r key = getAssoc d key := by
  induction u with
  | nil =>
    intro d r key h _
    rw [update_nested_dict] at h
    cases h
    rfl
  | cons a rest ih =>
    obtain ⟨k, v⟩ := a
    intro d r key h hkey
    simp only [List.map_cons, List.mem_cons, not_or] at hkey
    obtain ⟨w, hrest, _⟩ := update_step h
    rw [ih hrest hkey.2, getAssoc_setAssoc_ne _ _ (fun he => hkey.1 he.symm)]

theorem update_keys_present {u : List (String × Json)} :
    ∀ {d r : List (String × Json)},
      update_nested_dict d u = some r →
      (∀ x ∈ d.map Prod.fst, x ∈ r.map Prod.fst) ∧
      (∀ x ∈ u.map Prod.fst, x ∈ r.map Prod.fst) := by
  induction u with
  | nil =>
    intro d r h
    rw [update_nested_dict] at h
    cases h
    exact ⟨fun x hx => hx, by simp⟩
  | cons a rest ih =>
    obtain ⟨k, v⟩ := a
    intro d r h
    obtain ⟨w, hrest, _⟩ := update_step h
    obtain ⟨hd, hu⟩ := ih hrest
    refine ⟨?_, ?_⟩
    · intro x hx
      exact hd x (mem_keys_setAssoc_of_mem k w hx)
    · intro x hx
      simp only [List.map_cons, List.mem_cons] at hx
      rcases hx with hx | hx
      · exact hd x (hx ▸ mem_keys_setAssoc_self d k w)
      · exact hu x hx

theorem update_entry_obj {u : List (String × Json)} :
    ∀ {d r : List (String × Json)} {k : String} {uv : List (String × Json)},
      update_nested_dict d u = some r → (u.map Prod.fst).Nodup →
      (k, Json.obj uv) ∈ u →
      ∃ dv mm, (getAssoc d k = some (Json.obj dv) ∨ (getAssoc d k = none ∧ dv = [])) ∧
        update_nested_dict dv uv = some mm ∧ getAssoc r k = some (Json.obj mm) := by
  induction u with
  | nil => intro d r k uv _ _ hm; simp at hm
  | cons a rest ih =>
    obtain ⟨k0, v0⟩ := a
    intro d r k uv h hnd hm
    obtain ⟨w, hrest, hcase⟩ := update_step h
    rw [List.map_cons, List.nodup_cons] at hnd
    rcases List.mem_cons.mp hm with he | hm2
    · have hk0 : k0 = k := (congrArg Prod.fst he).symm
      have hv0 : v0 = Json.obj uv := (congrArg Prod.snd he).symm
      subst hk0
      subst hv0
      rcases hcase with ⟨uv2, dv, m, hv, hw, hupd, hga⟩ | ⟨hnotobj, _⟩
      · have huv2 : uv2 = uv := by
          injection hv.symm
        subst huv2
        subst hw
        refine ⟨dv, m, hga, hupd, ?_⟩
        rw [update_untouched hrest hnd.1, getAssoc_setAssoc_self]
      · exact absurd rfl (hnotobj uv)
    · have hkne : k0 ≠ k := by
        intro he0
        exact hnd.1 (he0 ▸ List.mem_map.mpr ⟨(k, Json.obj uv), hm2, rfl⟩)
      obtain ⟨dv, mm, hga2, hupd, hrk⟩ := ih hrest hnd.2 hm2
      rw [getAssoc_setAssoc_ne _ _ hkne] at hga2
      exact ⟨dv, mm, hga2, hupd, hrk⟩

/-- Claim C9: `update_json` merges the new single-metric result into the
existing metrics file deeply and non-destructively: in the written file the
metrics object still contains every previously computed metric key, every
metric key stored under a key different from the new metric keys keeps its
previous value, and the new metric key is present. -/
theorem C9_update_json_deep_merge (d data r dm um : List (String × Json))
    (hnd : (data.map Prod.fst).Nodup)
    (hdm : getAssoc d ("metrics") = some (.obj dm))
    (hum : ((("metrics") : String), Json.obj um) ∈ data)
    (hr : update_json (some d) data = some r) :
    ∃ mm, getAssoc r ("metrics") = some (Json.obj mm) ∧
      (∀ k, k ∉ um.map Prod.fst → getAssoc mm k = getAssoc dm k) ∧
      (∀ k ∈ um.map Prod.fst, k ∈ mm.map Prod.fst) ∧
      (∀ k ∈ dm.map Prod.fst, k ∈ mm.map Prod.fst) := by
  rw [update_json] at hr
  simp only [Option.getD_some] at hr
  obtain ⟨dv, mm, hdv, hupd, hrk⟩ := update_entry_obj hr hnd hum
  rcases hdv with hdv | ⟨hnone, _⟩
  · rw [hdm] at hdv
    have hobj : Json.obj dm = Json.obj dv := Option.some.inj hdv
    have hdveq : dm = dv := by injection hobj
    subst hdveq
    refine ⟨mm, hrk, ?_, ?_, ?_⟩
    · intro k hk
      exact update_untouched hupd hk
    · exact fun k hk => (update_keys_present hupd).2 k hk
    · exact fun k hk => (update_keys_present hupd).1 k hk
  · rw [hnone] at hdm
    exact Option.noConfusion hdm

/-- Witness for C9: merging a speed metric into a file holding an
effectiveness metric keeps the latter and adds the former. -/
theorem C9_update_json_deep_merge_witness :
    ∃ mm, getAssoc [((("algorithm") : String), Json.str ("algo")),
        ((("metrics") : String),
          Json.obj [((("effectiveness") : String), Json.num 1),
            ((("speed") : String), Json.num 2)])] ("metrics") = some (Json.obj mm) ∧
      (∀ k, k ∉ ([((("speed") : String), Json.num 2)].map Prod.fst) →
        getAssoc mm k = getAssoc [((("effectiveness") : String), Json.num 1)] k) ∧
      (∀ k ∈ [((("speed") : String), Json.num 2)].map Prod.fst, k ∈ mm.map Prod.fst) ∧
      (∀ k ∈ [((("effectiveness") : String), Json.num 1)].map Prod.fst,
        k ∈ mm.map Prod.fst) := by
  refine C9_update_json_deep_merge
    [((("algorithm") : String), Json.str ("algo")),
      ((("metrics") : String), Json.obj [((("effectiveness") : String), Json.num 1)])]
    [((("algorithm") : String), Json.str ("algo")),
      ((("metrics") : String), Json.obj [((("speed") : String), Json.num 2)])]
    _ [((("effectiveness") : String), Json.num 1)] [((("speed") : String), Json.num 2)]
    (by decide) (by rfl) (List.mem_cons_of_mem _ (List.mem_cons_self _ _)) ?_
  show update_json _ _ = _
  simp [update_json, update_nested_dict, getAssoc, setAssoc]

end Twinspect
